/-
Verification of the agent-enterprise-pack middleware primitives.

Shallow embedding of the Python sources in src/core into Lean 4:
pure logic is translated function-by-function; stateful classes become
explicit state records with state-passing operations; each public
operation takes the current wall-clock instant as an explicit rational
parameter standing for the time.time() value read during that call
(the Python code may read the clock more than once inside one
operation; the readings are nanoseconds apart and are modelled as one
instant).  Floats are modelled as rationals.  Locks serialize the
operations being modelled, so they do not appear in the embedding.
-/

import Mathlib

set_option maxHeartbeats 1000000

/-! # Section 1: rate limiter (src/core/security/rate_limiter.py) -/

namespace RateLim

/-- Outcome of a rate-limit check (RateLimitResult; THROTTLED is never
produced by the code and is omitted). -/
inductive RLResult where
  | allowed
  | denied
  deriving DecidableEq, Repr

/-- RateLimitResponse, with the fields the claims are about.  The
Python remaining field is int(...) of a float; metadata is logging
only and omitted. -/
structure RLResponse where
  result : RLResult
  limit : ℚ
  remaining : ℤ
  resetAt : ℚ
  retryAfter : Option ℚ
  deriving DecidableEq, Repr

/-- Python int() truncation toward zero of a rational. -/
def pyInt (q : ℚ) : ℤ := if 0 ≤ q then ⌊q⌋ else ⌈q⌉

/-- Token-bucket cell stored per key: InMemoryBackend._tokens[key]
holds the pair (tokens, last_update). -/
structure TBState where
  tokens : ℚ
  lastUpdate : ℚ
  deriving DecidableEq, Repr

/-- InMemoryBackend.get_tokens for one key.  Returns the pair the
Python method returns (available tokens, last update time) together
with the possibly-initialized store cell. -/
def getTokens (now maxTokens refillRate : ℚ) :
    Option TBState → (ℚ × ℚ) × Option TBState
  | none => ((maxTokens, now), some ⟨maxTokens, now⟩)
  | some st =>
      let elapsed := now - st.lastUpdate
      let refilled := min maxTokens (st.tokens + elapsed * refillRate)
      ((refilled, st.lastUpdate), some st)

/-- InMemoryBackend.consume_tokens for one key.  Note that the Python
method first calls get_tokens (which already refills) and then adds
elapsed * refill_rate to the refilled value a second time before
persisting. -/
def consumeTokens (now cost maxTokens refillRate : ℚ)
    (st : Option TBState) : Bool × Option TBState :=
  let res := getTokens now maxTokens refillRate st
  let available := res.1.1
  let lastUpdate := res.1.2
  if cost ≤ available then
    let elapsed := now - lastUpdate
    let refilled := min maxTokens (available + elapsed * refillRate)
    (true, some ⟨refilled - cost, now⟩)
  else
    (false, res.2)

/-- RateLimiter._check_token_bucket over the in-memory backend for one
key: consume, then read the bucket again to report remaining tokens.
requestsPerWindow, windowSeconds and burstLimit come from the limiter
configuration. -/
def checkTokenBucket (requestsPerWindow windowSeconds burstLimit : ℚ)
    (now cost : ℚ) (st : Option TBState) : RLResponse × Option TBState :=
  let refillRate := requestsPerWindow / windowSeconds
  let consumed := consumeTokens now cost burstLimit refillRate st
  let success := consumed.1
  let read := getTokens now burstLimit refillRate consumed.2
  let available := read.1.1
  if success then
    ({ result := .allowed, limit := burstLimit, remaining := pyInt available,
       resetAt := now + windowSeconds, retryAfter := none }, read.2)
  else
    let tokensNeeded := cost - available
    let retryAfter := tokensNeeded / refillRate
    ({ result := .denied, limit := burstLimit, remaining := pyInt available,
       resetAt := now + retryAfter, retryAfter := some retryAfter }, read.2)

/-- The token-bucket consume step as the specification sentence states
it: refill once to min(C, tokens + elapsed * rate); if the refilled
amount covers the cost, persist (refilled - cost, now) and succeed,
otherwise persist the refilled value and fail. -/
def consumeTokensSpec (now cost maxTokens refillRate : ℚ)
    (st : TBState) : Bool × Option TBState :=
  let elapsed := now - st.lastUpdate
  let refilled := min maxTokens (st.tokens + elapsed * refillRate)
  if cost ≤ refilled then
    (true, some ⟨refilled - cost, now⟩)
  else
    (false, some ⟨refilled, now⟩)

/-- Sliding-window store for one key: the timestamps currently
recorded (InMemoryBackend._windows[key], a multiset of request
times represented as a list). -/
abbrev SWState := List ℚ

/-- Minimum of a nonempty list of rationals, as Python min over the
window keys (the list passed in always ends with the timestamp just
inserted, so a default for [] is never reached). -/
def listMin (d : ℚ) : List ℚ → ℚ
  | [] => d
  | [x] => x
  | x :: y :: rest => min x (listMin d (y :: rest))

/-- InMemoryBackend.get_and_increment: drop entries with timestamp
at most now - window, count the survivors, insert the new request at
now, and report (count + 1, oldest surviving timestamp + window). -/
def getAndIncrement (now windowSeconds : ℚ) (ws : SWState) :
    (ℕ × ℚ) × SWState :=
  let kept := ws.filter (fun ts => decide (now - windowSeconds < ts))
  let currentCount := kept.length
  let ws2 := kept ++ [now]
  let resetAt := listMin now ws2 + windowSeconds
  ((currentCount + 1, resetAt), ws2)

/-- RateLimiter._check_sliding_window (the cost argument is unused in
the source). -/
def checkSlidingWindow (requestsPerWindow : ℕ) (windowSeconds : ℚ)
    (now : ℚ) (ws : SWState) : RLResponse × SWState :=
  let inc := getAndIncrement now windowSeconds ws
  let count := inc.1.1
  let resetAt := inc.1.2
  let remaining : ℤ := max 0 ((requestsPerWindow : ℤ) - count)
  if requestsPerWindow < count then
    ({ result := .denied, limit := (requestsPerWindow : ℚ), remaining := 0,
       resetAt := resetAt, retryAfter := some (max 0 (resetAt - now)) }, inc.2)
  else
    ({ result := .allowed, limit := (requestsPerWindow : ℚ),
       remaining := remaining, resetAt := resetAt, retryAfter := none }, inc.2)

/-- A sequence of sliding-window checks on one key at the given times,
returning the responses in order and the final window state. -/
def runSW (requestsPerWindow : ℕ) (windowSeconds : ℚ) :
    List ℚ → SWState → List RLResponse × SWState
  | [], ws => ([], ws)
  | t :: ts, ws =>
      let step := checkSlidingWindow requestsPerWindow windowSeconds t ws
      let rest := runSW requestsPerWindow windowSeconds ts step.2
      (step.1 :: rest.1, rest.2)

end RateLim

/-! # Section 2: circuit breaker (src/core/reliability/circuit_breaker.py) -/

namespace Circuit

/-- CircuitState. -/
inductive CState where
  | closed
  | opn
  | halfOpen
  deriving DecidableEq, Repr

/-- CircuitConfig (excluded exception types are modelled by a boolean
flag on each record_failure call saying whether the raised exception
is an instance of config.excluded_exceptions). -/
structure CConfig where
  failureThreshold : ℕ
  successThreshold : ℕ
  timeoutSeconds : ℚ
  failureRateThreshold : ℚ
  windowSize : ℕ
  deriving DecidableEq, Repr

/-- The mutable per-breaker fields the claims touch: _state,
_failure_count, _success_count, _open_time and the rolling _results
deque (most recent last).  Metrics and callbacks are observational
and omitted. -/
structure CB where
  state : CState
  failureCount : ℕ
  successCount : ℕ
  openTime : Option ℚ
  results : List Bool
  deriving DecidableEq, Repr

/-- Append to a deque with maxlen = n: the oldest entries are dropped
from the front once the length exceeds n. -/
def pushWindow (n : ℕ) (xs : List Bool) (b : Bool) : List Bool :=
  let ys := xs ++ [b]
  ys.drop (ys.length - n)

/-- CircuitBreaker._transition_to (observer callbacks and metrics are
omitted; they do not feed back into the state machine). -/
def transitionTo (now : ℚ) (newState : CState) (cb : CB) : CB :=
  if cb.state = newState then cb
  else
    match newState with
    | .opn => { cb with state := .opn, openTime := some now }
    | .closed =>
        { cb with
          state := .closed
          failureCount := 0
          successCount := 0
          openTime := none }
    | .halfOpen => { cb with state := .halfOpen, successCount := 0 }

/-- CircuitBreaker._check_state_transition.  The Python guard is
"if self._open_time and ..." so an open time that is None or exactly
0.0 (falsy) blocks the open -> half-open transition. -/
def checkStateTransition (now : ℚ) (cfg : CConfig) (cb : CB) : CB :=
  if cb.state = .opn then
    match cb.openTime with
    | some ot =>
        if ot ≠ 0 ∧ cfg.timeoutSeconds ≤ now - ot then
          transitionTo now .halfOpen cb
        else cb
    | none => cb
  else cb

/-- CircuitBreaker.can_execute: run the timed transition check, then
allow in closed and half-open and reject in open. -/
def canExecute (now : ℚ) (cfg : CConfig) (cb : CB) : Bool × CB :=
  let cb2 := checkStateTransition now cfg cb
  (cb2.state ≠ .opn, cb2)

/-- Failure fraction of the rolling window, as record_failure computes
it. -/
def failureRate (results : List Bool) : ℚ :=
  ((results.filter (fun r => !r)).length : ℚ) / (results.length : ℚ)

/-- CircuitBreaker.record_failure.  excluded is whether the exception
is an instance of the configured excluded types; such calls return
before touching any state. -/
def recordFailure (now : ℚ) (cfg : CConfig) (excluded : Bool) (cb : CB) : CB :=
  if excluded then cb
  else
    let cb2 := { cb with results := pushWindow cfg.windowSize cb.results false }
    match cb2.state with
    | .halfOpen => transitionTo now .opn cb2
    | .closed =>
        let cb3 := { cb2 with failureCount := cb2.failureCount + 1 }
        if cfg.failureThreshold ≤ cb3.failureCount then
          transitionTo now .opn cb3
        else if cfg.windowSize ≤ cb3.results.length ∧
            cfg.failureRateThreshold ≤ failureRate cb3.results then
          transitionTo now .opn cb3
        else cb3
    | .opn => cb2

/-- CircuitBreaker.record_success. -/
def recordSuccess (now : ℚ) (cfg : CConfig) (cb : CB) : CB :=
  let cb2 := { cb with results := pushWindow cfg.windowSize cb.results true }
  match cb2.state with
  | .halfOpen =>
      let cb3 := { cb2 with successCount := cb2.successCount + 1 }
      if cfg.successThreshold ≤ cb3.successCount then
        transitionTo now .closed cb3
      else cb3
  | .closed => { cb2 with failureCount := 0 }
  | .opn => cb2

/-- Fold a list of non-excluded record_failure calls at the given
times over a breaker. -/
def recordFailures (cfg : CConfig) : List ℚ → CB → CB
  | [], cb => cb
  | t :: ts, cb => recordFailures cfg ts (recordFailure t cfg false cb)

end Circuit

/-! # Section 3: retry handler (src/core/reliability/retry_handler.py) -/

namespace Retry

/-- BackoffStrategy. -/
inductive Strategy where
  | constant
  | linear
  | exponential
  | fibonacci
  deriving DecidableEq, Repr

/-- RetryOutcome. -/
inductive Outcome where
  | success
  | exhausted
  | timeout
  | aborted
  deriving DecidableEq, Repr

/-- RetryConfig.  Retryability predicates are folded into the
per-attempt behaviour below; jitter sampling is an explicit input
stream. -/
structure RConfig where
  maxAttempts : ℕ
  baseDelay : ℚ
  maxDelay : ℚ
  strategy : Strategy
  multiplier : ℚ
  jitter : Bool
  jitterLo : ℚ
  jitterHi : ℚ
  totalTimeout : Option ℚ
  deriving DecidableEq, Repr

/-- What one execution attempt does, seen from the retry loop:
either the callable returns (and retry_on_result said retry or not),
or it raises (and _should_retry said retryable or not). -/
inductive Attempt where
  | ok (resultRetry : Bool)
  | err (retryable : Bool)
  deriving DecidableEq, Repr

/-- The fields of RetryResult the claims are about (value, exception
and total_time are carried along in the source but play no role
here). -/
structure RResult where
  outcome : Outcome
  attempts : ℕ
  delays : List ℚ
  deriving DecidableEq, Repr

/-- RetryHandler._calculate_delay for 1-indexed attempt n, given the
uniform(lo, hi) sample drawn for this call.  The fibonacci cache is
memoization of Nat.fib. -/
def calcDelay (cfg : RConfig) (jitterSample : ℚ) (attempt : ℕ) : ℚ :=
  let raw : ℚ :=
    match cfg.strategy with
    | .constant => cfg.baseDelay
    | .linear => cfg.baseDelay * (attempt : ℚ)
    | .exponential => cfg.baseDelay * cfg.multiplier ^ (attempt - 1)
    | .fibonacci => cfg.baseDelay * (Nat.fib attempt : ℚ)
  let capped := min raw cfg.maxDelay
  if cfg.jitter then capped * jitterSample else capped

/-- The retry loop of RetryHandler.execute from attempt n on.
attemptAt gives the behaviour of the callable on each 1-indexed
attempt, elapsedAt the time.time() - start_time reading at the head of
each loop iteration, jitterAt the uniform jitter sample drawn when the
delay after each attempt is computed.  The Python timeout guard is
"if self.config.total_timeout:" so a configured total_timeout of 0.0
(falsy) disables the check. -/
def execAux (cfg : RConfig) (attemptAt : ℕ → Attempt) (elapsedAt : ℕ → ℚ)
    (jitterAt : ℕ → ℚ) (n : ℕ) (delays : List ℚ) : RResult :=
  if _h : cfg.maxAttempts + 1 ≤ n then
    { outcome := .exhausted, attempts := cfg.maxAttempts, delays := delays }
  else
    let timedOut : Bool :=
      match cfg.totalTimeout with
      | some t => decide (t ≠ 0 ∧ t ≤ elapsedAt n)
      | none => false
    if timedOut then
      { outcome := .timeout, attempts := n - 1, delays := delays }
    else
      match attemptAt n with
      | .ok resultRetry =>
          if resultRetry ∧ n < cfg.maxAttempts then
            execAux cfg attemptAt elapsedAt jitterAt (n + 1)
              (delays ++ [calcDelay cfg (jitterAt n) n])
          else
            { outcome := .success, attempts := n, delays := delays }
      | .err retryable =>
          if retryable then
            if n < cfg.maxAttempts then
              execAux cfg attemptAt elapsedAt jitterAt (n + 1)
                (delays ++ [calcDelay cfg (jitterAt n) n])
            else
              execAux cfg attemptAt elapsedAt jitterAt (n + 1) delays
          else
            { outcome := .aborted, attempts := n, delays := delays }
termination_by cfg.maxAttempts + 1 - n

/-- RetryHandler.execute. -/
def execute (cfg : RConfig) (attemptAt : ℕ → Attempt) (elapsedAt : ℕ → ℚ)
    (jitterAt : ℕ → ℚ) : RResult :=
  execAux cfg attemptAt elapsedAt jitterAt 1 []

end Retry

/-! # Section 4: context window manager (src/core/memory/context_manager.py) -/

namespace Ctx

/-- MessageRole. -/
inductive Role where
  | system
  | user
  | assistant
  | tool
  | function
  deriving DecidableEq, Repr

/-- Message.  Content and name are character lists; metadata is
omitted. -/
structure Msg where
  role : Role
  content : List Char
  name : Option (List Char) := none
  priority : ℤ := 0
  tokenCount : Option ℕ := none
  deriving DecidableEq, Repr

/-- TruncationStrategy. -/
inductive Strategy where
  | fifo
  | lifo
  | slidingWindow
  | priority
  | summarize
  deriving DecidableEq, Repr

/-- The ContextConfig fields the manager consults (max_tokens,
reserve_tokens and system_prompt_tokens do not feed the truncation
logic).  preserveSystem and preserveLatestUser keep their source
defaults. -/
structure CConfig where
  targetTokens : ℤ
  strategy : Strategy
  slidingWindowSize : ℕ
  minMessages : ℕ := 4
  preserveSystem : Bool := true
  preserveLatestUser : Bool := true
  deriving DecidableEq, Repr

/-- A token counter: count for a single text and count_messages for a
message list.  The manager works with any TokenCounter
implementation, so both are parameters of every operation. -/
structure Counter where
  count : List Char → ℕ
  countMessages : List Msg → ℤ

/-- ApproximateTokenCounter.count with the default 4.0
characters-per-token ratio: int(len(text) / 4.0). -/
def approxCount (text : List Char) : ℕ := text.length / 4

/-- ApproximateTokenCounter.count_messages: 4 tokens of structure
overhead per message, the content count, and name count + 1 when a
name is set. -/
def approxCountMessages (msgs : List Msg) : ℤ :=
  msgs.foldl
    (fun total msg =>
      total + 4 + approxCount msg.content +
        (match msg.name with
         | some n => (approxCount n : ℤ) + 1
         | none => 0))
    0

/-- The default ApproximateTokenCounter(). -/
def approxCounter : Counter :=
  { count := approxCount, countMessages := approxCountMessages }

/-- The mutable manager fields: _messages, _system_message and
_summary. -/
structure CtxState where
  msgs : List Msg
  systemMsg : Option Msg
  summary : Option (List Char)

/-- The synthetic summary message _get_all_messages builds from a
stored summary: a system message "Previous conversation summary:\n"
followed by the summary text, at priority 5. -/
def summaryMsg (s : List Char) : Msg :=
  { role := .system,
    content := ("Previous conversation summary:\n".data) ++ s,
    priority := 5 }

/-- ContextWindowManager._get_all_messages: optional system message,
then the synthetic summary message if a summary is stored, then the
conversation messages. -/
def getAllMessages (st : CtxState) : List Msg :=
  (match st.systemMsg with | some m => [m] | none => []) ++
    (match st.summary with | some s => [summaryMsg s] | none => []) ++
    st.msgs

/-- ContextWindowManager.current_tokens. -/
def currentTokens (c : Counter) (st : CtxState) : ℤ :=
  c.countMessages (getAllMessages st)

/-- One pass of the FIFO drop: remove the first message of priority
below 5, or the oldest message when every message has priority 5 or
more (_truncate_fifo loop body). -/
def fifoDropOne (msgs : List Msg) : List Msg :=
  match msgs.findIdx? (fun m => decide (m.priority < 5)) with
  | some i => msgs.eraseIdx i
  | none => msgs.eraseIdx 0

/-- ContextWindowManager._truncate_fifo: drop messages until the token
count is within target or at most min_messages remain. -/
def truncateFifo (c : Counter) (cfg : CConfig) (sys : Option Msg)
    (summary : Option (List Char)) (msgs : List Msg) : List Msg :=
  if _h : cfg.targetTokens <
      currentTokens c ⟨msgs, sys, summary⟩ ∧ cfg.minMessages < msgs.length then
    truncateFifo c cfg sys summary (fifoDropOne msgs)
  else msgs
termination_by msgs.length
decreasing_by
  have hlen : 0 < msgs.length := by omega
  unfold fifoDropOne
  cases hidx : msgs.findIdx? (fun m => decide (m.priority < 5)) with
  | none =>
      simp only [List.length_eraseIdx, hlen, if_true]
      omega
  | some i =>
      have hi : i < msgs.length := (List.findIdx?_eq_some_iff_findIdx_eq.mp hidx).1
      simp only [List.length_eraseIdx, hi, if_true]
      omega

/-- Index of the most recent user message (the backwards scan in
_truncate_lifo), or none. -/
def latestUserIdx (msgs : List Msg) : Option ℕ :=
  let rec go : ℕ → Option ℕ
    | 0 => none
    | i + 1 =>
        if (msgs.getD i { role := .system, content := [] }).role = Role.user
        then some i else go i
  go msgs.length

/-- One pass of the LIFO drop: remove the last index different from
the preserved latest-user index (when preserve_latest_user is set),
else simply pop the last message.  When no index can be removed the
Python loop body makes no progress (and the while loop would spin
forever); that case is reachable only with min_messages = 0 and is
returned unchanged here. -/
def lifoDropOne (cfg : CConfig) (msgs : List Msg) : List Msg :=
  if cfg.preserveLatestUser then
    let keep := latestUserIdx msgs
    let rec go : ℕ → List Msg
      | 0 => msgs
      | i + 1 => if some i ≠ keep then msgs.eraseIdx i else go i
    go msgs.length
  else msgs.dropLast

/-- ContextWindowManager._truncate_lifo. -/
def truncateLifo (c : Counter) (cfg : CConfig) (sys : Option Msg)
    (summary : Option (List Char)) (msgs : List Msg) : List Msg :=
  if _h : cfg.targetTokens <
      currentTokens c ⟨msgs, sys, summary⟩ ∧ cfg.minMessages < msgs.length then
    let msgs2 := lifoDropOne cfg msgs
    if _hprog : msgs2.length < msgs.length then
      truncateLifo c cfg sys summary msgs2
    else msgs
  else msgs
termination_by msgs.length

/-- Index of the first message attaining the minimum priority (the
linear scan in _truncate_priority with min_priority starting at
infinity). -/
def minPriorityIdx (msgs : List Msg) : ℕ :=
  let rec go : List Msg → ℕ → ℤ → ℕ → ℕ
    | [], _, _, best => best
    | m :: rest, i, bestPr, best =>
        if m.priority < bestPr then go rest (i + 1) m.priority i
        else go rest (i + 1) bestPr best
  match msgs with
  | [] => 0
  | m :: rest => go rest 1 m.priority 0

/-- ContextWindowManager._truncate_priority. -/
def truncatePriority (c : Counter) (cfg : CConfig) (sys : Option Msg)
    (summary : Option (List Char)) (msgs : List Msg) : List Msg :=
  if _h : cfg.targetTokens <
      currentTokens c ⟨msgs, sys, summary⟩ ∧ cfg.minMessages < msgs.length then
    truncatePriority c cfg sys summary (msgs.eraseIdx (minPriorityIdx msgs))
  else msgs
termination_by msgs.length
decreasing_by
  have hlen : 0 < msgs.length := by omega
  have key : ∀ (l : List Msg) (i : ℕ) (bp : ℤ) (b : ℕ), b < i →
      minPriorityIdx.go l i bp b < i + l.length := by
    intro l
    induction l with
    | nil => intro i bp b hb; simpa [minPriorityIdx.go] using hb
    | cons x xs ih =>
        intro i bp b hb
        unfold minPriorityIdx.go
        by_cases hx : x.priority < bp
        · simp only [if_pos hx]
          have := ih (i + 1) x.priority i (by omega)
          simp only [List.length_cons]
          omega
        · simp only [if_neg hx]
          have := ih (i + 1) bp b (by omega)
          simp only [List.length_cons]
          omega
  have hidx : minPriorityIdx msgs < msgs.length := by
    cases msgs with
    | nil => simp at hlen
    | cons m rest =>
        have := key rest 1 m.priority 0 (by omega)
        simp only [minPriorityIdx, List.length_cons]
        omega
  simp only [List.length_eraseIdx, hidx, if_true]
  omega

/-- ContextWindowManager._truncate_sliding_window: when more than
sliding_window_size messages are stored, keep
messages[-sliding_window_size:].  Python slice quirk: [-0:] is [0:],
the whole list, so a window size of 0 keeps every message. -/
def truncateSliding (cfg : CConfig) (msgs : List Msg) : List Msg :=
  if cfg.slidingWindowSize < msgs.length then
    (if cfg.slidingWindowSize = 0 then msgs
     else msgs.drop (msgs.length - cfg.slidingWindowSize))
  else msgs

/-- A summarizer: the pluggable callable handed to the manager; it
may raise, which Except models. -/
abbrev Summarizer := List Msg → Except Unit (List Char)

/-- ContextWindowManager._truncate_summarize.  Without a summarizer it
falls back to the sliding window.  Otherwise, when more than
min_messages messages are stored, it keeps the last min_messages and
calls the summarizer on the dropped prefix; if that call raises, the
error is logged and the manager continues with the prefix already
dropped and the previous summary left in place. -/
def truncateSummarize (summarizer : Option Summarizer) (cfg : CConfig)
    (summary : Option (List Char)) (msgs : List Msg) :
    List Msg × Option (List Char) :=
  match summarizer with
  | none => (truncateSliding cfg msgs, summary)
  | some f =>
      if cfg.minMessages < msgs.length then
        let toSummarize := msgs.take (msgs.length - cfg.minMessages)
        let kept := msgs.drop (msgs.length - cfg.minMessages)
        match f toSummarize with
        | .ok s => (kept, some s)
        | .error _ => (kept, summary)
      else (msgs, summary)

/-- ContextWindowManager._truncate: dispatch on the configured
strategy.  Only the summarize strategy can change the stored
summary. -/
def truncate (c : Counter) (summarizer : Option Summarizer) (cfg : CConfig)
    (st : CtxState) : CtxState :=
  match cfg.strategy with
  | .fifo =>
      { st with msgs := truncateFifo c cfg st.systemMsg st.summary st.msgs }
  | .lifo =>
      { st with msgs := truncateLifo c cfg st.systemMsg st.summary st.msgs }
  | .slidingWindow => { st with msgs := truncateSliding cfg st.msgs }
  | .priority =>
      { st with msgs := truncatePriority c cfg st.systemMsg st.summary st.msgs }
  | .summarize =>
      let r := truncateSummarize summarizer cfg st.summary st.msgs
      { st with msgs := r.1, summary := r.2 }

/-- ContextWindowManager.add_message: stamp the token count, append,
and truncate when the token total exceeds the target.  Returns False
exactly when truncation ran. -/
def addMessage (c : Counter) (summarizer : Option Summarizer) (cfg : CConfig)
    (st : CtxState) (m : Msg) : Bool × CtxState :=
  let m2 := { m with tokenCount := some (c.count m.content) }
  let st2 := { st with msgs := st.msgs ++ [m2] }
  if cfg.targetTokens < currentTokens c st2 then
    (false, truncate c summarizer cfg st2)
  else (true, st2)

/-- A sequence of add_message calls. -/
def addMessages (c : Counter) (summarizer : Option Summarizer)
    (cfg : CConfig) : CtxState → List Msg → CtxState
  | st, [] => st
  | st, m :: ms =>
      addMessages c summarizer cfg (addMessage c summarizer cfg st m).2 ms

end Ctx

/-! # Section 5: input validator (src/core/security/input_validator.py)

The validator pipeline works on character lists.  The Python regular
expressions are modelled as character-level scanners; the regex
classes \w and \s and re.IGNORECASE are modelled at ASCII precision
(every input the theorems below evaluate them on is ASCII).
unicodedata.normalize("NFC", _) is an external library call and is a
parameter of the pipeline; the theorems that need it instantiate or
constrain it explicitly (on ASCII text NFC is the identity). -/

namespace Validator

/-- ASCII lowercasing, for the re.IGNORECASE patterns. -/
def lcChar (c : Char) : Char :=
  if 'A' ≤ c ∧ c ≤ 'Z' then Char.ofNat (c.toNat + 32) else c

/-- Case-insensitive literal match at the head; the needle is given
lowercase. -/
def startsWithCI : List Char → List Char → Bool
  | [], _ => true
  | _ :: _, [] => false
  | p :: ps, c :: cs => lcChar c = p && startsWithCI ps cs

/-- Case-sensitive literal match at the head. -/
def startsWithCS : List Char → List Char → Bool
  | [], _ => true
  | _ :: _, [] => false
  | p :: ps, c :: cs => c = p && startsWithCS ps cs

/-- re.search of a case-insensitive literal. -/
def containsCI (pat : List Char) : List Char → Bool
  | [] => startsWithCI pat []
  | c :: rest => startsWithCI pat (c :: rest) || containsCI pat rest

/-- Try a position-anchored matcher at every position (re.search). -/
def scanStr (f : List Char → Bool) : List Char → Bool
  | [] => f []
  | c :: rest => f (c :: rest) || scanStr f rest

/-- Try a matcher that also looks at the preceding character (for \b)
at every position. -/
def scanPrev (f : Option Char → List Char → Bool) :
    Option Char → List Char → Bool
  | prev, [] => f prev []
  | prev, c :: rest => f prev (c :: rest) || scanPrev f (some c) rest

/-- The regex class \w at ASCII precision. -/
def isWordChar (c : Char) : Bool :=
  ('a' ≤ c ∧ c ≤ 'z') || ('A' ≤ c ∧ c ≤ 'Z') || ('0' ≤ c ∧ c ≤ '9') || c = '_'

/-- The regex class \s at ASCII precision (also used for str.strip;
the form feed and vertical tab are control characters and were
removed by the control-character pass before any use of this
predicate). -/
def isWsChar (c : Char) : Bool :=
  c = ' ' || c = '\t' || c = '\n' || c = '\x0d' ||
    c = Char.ofNat 11 || c = Char.ofNat 12

/-- A word boundary \b before the current position, given the
preceding character. -/
def atBoundary : Option Char → Bool
  | none => true
  | some c => !isWordChar c

/-- A word boundary \b after a token ending in a word character:
the next character is absent or not a word character. -/
def endBoundary : List Char → Bool
  | [] => true
  | c :: _ => !isWordChar c

/-- Consume a case-insensitive literal. -/
def afterLitCI (pat s : List Char) : Option (List Char) :=
  if startsWithCI pat s then some (s.drop pat.length) else none

/-- Consume \s+ (one or more whitespace characters, maximally; the
following regex token in every pattern below cannot match a
whitespace character, so backtracking never helps). -/
def afterWs1 : List Char → Option (List Char)
  | c :: rest => if isWsChar c then some (rest.dropWhile isWsChar) else none
  | [] => none

/-- Consume \s* . -/
def afterWsStar (s : List Char) : List Char := s.dropWhile isWsChar

/-- Consume \w+ (maximally; the following token in every pattern
below cannot match a word character). -/
def afterWord1 : List Char → Option (List Char)
  | c :: rest => if isWordChar c then some (rest.dropWhile isWordChar) else none
  | [] => none

/-- Scan forward to the first occurrence of the delimiter d and
return the remainder after it: the tail of a regex piece of the form
[^d]*d . -/
def scanDelim (d : Char) : List Char → Option (List Char)
  | [] => none
  | c :: rest => if c = d then some rest else scanDelim d rest

/-- A regex piece [^d]+d : at least one non-delimiter character, then
the first delimiter. -/
def findDelim (d : Char) : List Char → Option (List Char)
  | [] => none
  | c :: rest => if c = d then none else scanDelim d rest

/-- The hexadecimal digit class. -/
def isHexChar (c : Char) : Bool :=
  ('0' ≤ c ∧ c ≤ '9') || ('a' ≤ c ∧ c ≤ 'f') || ('A' ≤ c ∧ c ≤ 'F')

/-- XSS pattern <script[^>]*>.*?</script> anchored at the current
position. -/
def xssScriptAt (s : List Char) : Bool :=
  match afterLitCI ("<script".data) s with
  | some r =>
      match scanDelim '>' r with
      | some r2 => containsCI ("</script>".data) r2
      | none => false
  | none => false

/-- XSS pattern on\w+\s*= anchored at the current position. -/
def xssOnAttrAt (s : List Char) : Bool :=
  match afterLitCI ("on".data) s with
  | some r =>
      match afterWord1 r with
      | some r2 =>
          match afterWsStar r2 with
          | '=' :: _ => true
          | _ => false
      | none => false
  | none => false

/-- XSS patterns of the form <name[^>]*> anchored at the current
position. -/
def xssTagAt (name : List Char) (s : List Char) : Bool :=
  match afterLitCI ('<' :: name) s with
  | some r => (scanDelim '>' r).isSome
  | none => false

/-- XSS pattern expression\s*\( anchored at the current position. -/
def xssExprAt (s : List Char) : Bool :=
  match afterLitCI ("expression".data) s with
  | some r =>
      match afterWsStar r with
      | '(' :: _ => true
      | _ => false
  | none => false

/-- InputValidator._detect_xss as a boolean: some XSS_PATTERNS entry
matches somewhere. -/
def detectXss (s : List Char) : Bool :=
  scanStr xssScriptAt s ||
  containsCI ("javascript:".data) s ||
  scanStr xssOnAttrAt s ||
  scanStr (xssTagAt ("iframe".data)) s ||
  scanStr (xssTagAt ("object".data)) s ||
  scanStr (xssTagAt ("embed".data)) s ||
  scanStr (xssTagAt ("link".data)) s ||
  scanStr (xssTagAt ("meta".data)) s ||
  scanStr xssExprAt s ||
  containsCI ("vbscript:".data) s ||
  containsCI ("data:text/html".data) s

/-- The six alternatives of the first SQL keyword pattern, each as
the remainder after the alternative when it matches here. -/
def sqlKwAlts (s : List Char) : List (Option (List Char)) :=
  [ (afterLitCI ("union".data) s).bind afterWs1 |>.bind
      (fun r => afterLitCI ("select".data) r),
    (afterLitCI ("select".data) s).bind afterWs1 |>.bind
      (fun r => afterLitCI ("*".data) r) |>.bind afterWs1 |>.bind
      (fun r => afterLitCI ("from".data) r),
    (afterLitCI ("insert".data) s).bind afterWs1 |>.bind
      (fun r => afterLitCI ("into".data) r),
    (afterLitCI ("delete".data) s).bind afterWs1 |>.bind
      (fun r => afterLitCI ("from".data) r),
    (afterLitCI ("drop".data) s).bind afterWs1 |>.bind
      (fun r => afterLitCI ("table".data) r),
    (afterLitCI ("update".data) s).bind afterWs1 |>.bind afterWord1 |>.bind
      afterWs1 |>.bind (fun r => afterLitCI ("set".data) r) ]

/-- SQL pattern
\b(union\s+select|select\s+\*\s+from|insert\s+into|delete\s+from|
drop\s+table|update\s+\w+\s+set)\b anchored at the current
position. -/
def sqlKwAt (prev : Option Char) (s : List Char) : Bool :=
  atBoundary prev &&
    (sqlKwAlts s).any (fun r =>
      match r with
      | some rest => endBoundary rest
      | none => false)

/-- SQL pattern ('\s*or\s+'|"\s*or\s+") anchored at the current
position. -/
def sqlQuoteOrAt (s : List Char) : Bool :=
  match s with
  | q :: rest =>
      (q = Char.ofNat 39 || q = '"') &&
        (match (afterLitCI ("or".data) (afterWsStar rest)).bind afterWs1 with
         | some (c :: _) => c = q
         | _ => false)
  | [] => false

/-- SQL pattern --\s*$ under re.MULTILINE anchored at the current
position: after the dashes, \s* can stop at the end of the string or
just before a newline inside the whitespace run. -/
def sqlDashAt (s : List Char) : Bool :=
  match s with
  | '-' :: '-' :: r =>
      let run := r.takeWhile isWsChar
      run.length = r.length || run.any (fun c => c = '\n')
  | _ => false

/-- SQL pattern ;\s*-- anchored at the current position. -/
def sqlSemiDashAt (s : List Char) : Bool :=
  match s with
  | ';' :: rest =>
      match afterWsStar rest with
      | '-' :: '-' :: _ => true
      | _ => false
  | _ => false

/-- SQL pattern \b(exec|execute|xp_|sp_)\b anchored at the current
position (the alternatives xp_ and sp_ end in a word character, so
the trailing boundary needs a non-word character or the end of the
string after the underscore). -/
def sqlExecAt (prev : Option Char) (s : List Char) : Bool :=
  atBoundary prev &&
    ([afterLitCI ("exec".data) s, afterLitCI ("execute".data) s,
      afterLitCI ("xp_".data) s, afterLitCI ("sp_".data) s].any (fun r =>
        match r with
        | some rest => endBoundary rest
        | none => false))

/-- SQL pattern 0x[0-9a-fA-F]+ (the only case-sensitive SQL pattern)
anchored at the current position. -/
def sqlHexAt (s : List Char) : Bool :=
  match s with
  | '0' :: 'x' :: c :: _ => isHexChar c
  | _ => false

/-- InputValidator._detect_sql_injection as a boolean. -/
def detectSql (s : List Char) : Bool :=
  scanPrev sqlKwAt none s ||
  scanStr sqlQuoteOrAt s ||
  scanStr sqlDashAt s ||
  scanStr sqlSemiDashAt s ||
  scanPrev sqlExecAt none s ||
  scanStr sqlHexAt s

/-- Command-injection pattern [;&|`$] anchored at the current
position. -/
def cmdCharAt (s : List Char) : Bool :=
  match s with
  | c :: _ => c = ';' || c = '&' || c = '|' || c = Char.ofNat 96 || c = '$'
  | [] => false

/-- Command-injection pattern \$\([^)]+\) anchored at the current
position. -/
def cmdDollarParenAt (s : List Char) : Bool :=
  match s with
  | '$' :: '(' :: rest => (findDelim ')' rest).isSome
  | _ => false

/-- Command-injection backtick pattern (a pair of backticks with at
least one other character between) anchored at the current
position. -/
def cmdBacktickAt (s : List Char) : Bool :=
  match s with
  | c :: rest => c = Char.ofNat 96 && (findDelim (Char.ofNat 96) rest).isSome
  | [] => false

/-- Command-injection pattern
\b(rm\s+-rf|wget|curl|nc\s|netcat|bash|sh\s+-c)\b anchored at the
current position.  In nc\s the trailing boundary sits after a
whitespace character, so it requires a word character next. -/
def cmdWordsAt (prev : Option Char) (s : List Char) : Bool :=
  atBoundary prev &&
    (((afterLitCI ("rm".data) s).bind afterWs1 |>.bind
        (fun r => afterLitCI ("-rf".data) r) |>.elim false endBoundary) ||
     ((afterLitCI ("wget".data) s).elim false endBoundary) ||
     ((afterLitCI ("curl".data) s).elim false endBoundary) ||
     (match afterLitCI ("nc".data) s with
      | some (c :: d :: _) => isWsChar c && isWordChar d
      | _ => false) ||
     ((afterLitCI ("netcat".data) s).elim false endBoundary) ||
     ((afterLitCI ("bash".data) s).elim false endBoundary) ||
     ((afterLitCI ("sh".data) s).bind afterWs1 |>.bind
        (fun r => afterLitCI ("-c".data) r) |>.elim false endBoundary))

/-- InputValidator._detect_command_injection as a boolean. -/
def detectCmd (s : List Char) : Bool :=
  scanStr cmdCharAt s ||
  scanStr cmdDollarParenAt s ||
  scanStr cmdBacktickAt s ||
  scanPrev cmdWordsAt none s

/-- InputValidator._detect_path_traversal as a boolean. -/
def detectPath (s : List Char) : Bool :=
  containsCI ("../".data) s ||
  containsCI ("..\\".data) s ||
  containsCI ("%2e%2e%2f".data) s ||
  containsCI ("%252e%252e%252f".data) s

/-- CONTROL_CHAR_PATTERN: the C0 and C1 control characters minus
tab, newline and carriage return. -/
def isCtlChar (c : Char) : Bool :=
  c.toNat ≤ 0x08 || c.toNat = 0x0b || c.toNat = 0x0c ||
    (0x0e ≤ c.toNat ∧ c.toNat ≤ 0x1f) ||
    (0x7f ≤ c.toNat ∧ c.toNat ≤ 0x9f)

end Validator

namespace Validator

/-- Auxiliary length bound for the tag scanner, needed for
termination of stripTags. -/
theorem scanDelim_sublen {d : Char} :
    ∀ {s after : List Char}, scanDelim d s = some after →
      after.length < s.length := by
  intro s
  induction s with
  | nil => intro after h; simp [scanDelim] at h
  | cons c rest ih =>
      intro after h
      by_cases hc : c = d
      · simp only [scanDelim, if_pos hc, Option.some.injEq] at h
        subst h
        simp
      · simp only [scanDelim, if_neg hc] at h
        exact Nat.lt_trans (ih h) (by simp)

/-- Auxiliary length bound for [^d]+d, needed for termination of
stripTags. -/
theorem findDelim_sublen {d : Char} {s after : List Char}
    (h : findDelim d s = some after) : after.length < s.length := by
  cases s with
  | nil => simp [findDelim] at h
  | cons c rest =>
      by_cases hc : c = d
      · simp [findDelim, hc] at h
      · simp only [findDelim, if_neg hc] at h
        exact Nat.lt_trans (scanDelim_sublen h) (by simp)

/-- HTML_TAG_PATTERN <[^>]+> applied with re.sub(_, ""): drop each
tag-shaped span, keep a lone < that opens no tag. -/
def stripTags : List Char → List Char
  | [] => []
  | c :: rest =>
      if c = '<' then
        match _h : findDelim '>' rest with
        | some after => stripTags after
        | none => c :: stripTags rest
      else c :: stripTags rest
termination_by s => s.length
decreasing_by
  · have := findDelim_sublen _h
    simp only [List.length_cons]
    omega
  · simp
  · simp

/-- The entity table used by html.unescape, restricted to the named
and numeric references that occur in this development (the full
Python table also decodes about two thousand other names, numeric
references, and semicolonless forms; on text that contains no
ampersand, or only the references below, this restriction agrees
with html.unescape exactly, and that is the only way the theorems
below use it). -/
def matchEntity (s : List Char) : Option (Char × List Char) :=
  if startsWithCS ("amp;".data) s then some ('&', s.drop 4)
  else if startsWithCS ("lt;".data) s then some ('<', s.drop 3)
  else if startsWithCS ("gt;".data) s then some ('>', s.drop 3)
  else if startsWithCS ("quot;".data) s then some ('"', s.drop 5)
  else if startsWithCS ("#39;".data) s then some (Char.ofNat 39, s.drop 4)
  else none

/-- Auxiliary length bound for entity matching, needed for
termination of htmlUnescape. -/
theorem matchEntity_sublen {s : List Char} {r : Char} {rest : List Char}
    (h : matchEntity s = some (r, rest)) : rest.length ≤ s.length := by
  unfold matchEntity at h
  repeat' split at h
  all_goals simp_all
  all_goals (cases h.2; simp)

/-- html.unescape: a single left-to-right pass replacing character
references; replaced text is not rescanned. -/
def htmlUnescape : List Char → List Char
  | [] => []
  | c :: rest =>
      if c = '&' then
        match _h : matchEntity rest with
        | some pr => pr.1 :: htmlUnescape pr.2
        | none => c :: htmlUnescape rest
      else c :: htmlUnescape rest
termination_by s => s.length
decreasing_by
  · have := matchEntity_sublen _h
    simp only [List.length_cons]
    omega
  · simp
  · simp

/-- InputValidator._strip_html: remove tags, then decode entities. -/
def stripHtmlStep (s : List Char) : List Char := htmlUnescape (stripTags s)

/-- re.sub(" +", " ", _): collapse each maximal run of spaces to a
single space. -/
def collapseSpaces : List Char → List Char
  | [] => []
  | c :: rest =>
      if c = ' ' then
        ' ' :: collapseSpaces (rest.dropWhile (fun x => x = ' '))
      else c :: collapseSpaces rest
termination_by s => s.length
decreasing_by
  · have : (rest.dropWhile (fun x => x = ' ')).length ≤ rest.length :=
      (List.dropWhile_suffix _).length_le
    simp only [List.length_cons]
    omega
  · simp

/-- re.sub("\n with three or more repeats", two newlines, _):
collapse each maximal run of at least three newlines to exactly
two. -/
def collapseNewlines : List Char → List Char
  | [] => []
  | c :: rest =>
      if c = '\n' then
        (if 2 ≤ (rest.takeWhile (fun x => x = '\n')).length
         then ['\n', '\n']
         else '\n' :: rest.takeWhile (fun x => x = '\n')) ++
          collapseNewlines (rest.dropWhile (fun x => x = '\n'))
      else c :: collapseNewlines rest
termination_by s => s.length
decreasing_by
  · have : (rest.dropWhile (fun x => x = '\n')).length ≤ rest.length :=
      (List.dropWhile_suffix _).length_le
    simp only [List.length_cons]
    omega
  · simp

/-- str.strip(): drop leading and trailing whitespace. -/
def pyStrip (s : List Char) : List Char :=
  ((s.dropWhile isWsChar).reverse.dropWhile isWsChar).reverse

/-- InputValidator._normalize_whitespace. -/
def normalizeWhitespace (s : List Char) : List Char :=
  pyStrip (collapseNewlines (collapseSpaces s))

/-- ThreatType. -/
inductive Threat where
  | xss
  | sqlInjection
  | commandInjection
  | pathTraversal
  | encodingAttack
  | excessiveLength
  | invalidChars
  deriving DecidableEq, Repr

/-- ValidationLevel. -/
inductive Level where
  | permissive
  | standard
  | strict
  deriving DecidableEq, Repr

/-- The ValidationConfig fields the validate method consults
(max_line_count and allowed_unicode_categories only feed warnings or
are never read). -/
structure VConfig where
  maxLength : ℕ := 32000
  minLength : ℕ := 1
  stripHtml : Bool := true
  normalizeUnicode : Bool := true
  normalizeWs : Bool := true
  blockControlChars : Bool := true
  level : Level := .standard
  deriving DecidableEq, Repr

/-- The default ValidationConfig(). -/
def defaultVConfig : VConfig := {}

/-- Membership test on the collected threat list. -/
def hasThreat (threats : List Threat) (t : Threat) : Bool :=
  threats.any (fun x => decide (x = t))

/-- InputValidator._determine_validity. -/
def determineValidity (level : Level) (threats : List Threat) : Bool :=
  if threats.isEmpty then true
  else
    match level with
    | .permissive =>
        !(hasThreat threats .xss || hasThreat threats .sqlInjection)
    | .standard =>
        !(hasThreat threats .xss || hasThreat threats .sqlInjection ||
          hasThreat threats .pathTraversal)
    | .strict => false

/-- ValidationResult, without the warnings and metadata fields (both
are informational strings and counters that no claim touches). -/
structure VResult where
  isValid : Bool
  sanitized : List Char
  original : List Char
  threats : List Threat
  deriving DecidableEq, Repr

/-- InputValidator.validate.  nfc stands for
unicodedata.normalize("NFC", _).  Note that the early return for
text below the minimum length builds a fresh ValidationResult whose
threat list is the dataclass default (empty), discarding an
EXCESSIVE_LENGTH threat recorded before truncation. -/
def validate (nfc : List Char → List Char) (cfg : VConfig)
    (text : List Char) : VResult :=
  let lengthExceeded := cfg.maxLength < text.length
  let text1 := if lengthExceeded then text.take cfg.maxLength else text
  let threats0 : List Threat :=
    if lengthExceeded then [.excessiveLength] else []
  if text1.length < cfg.minLength then
    { isValid := false, sanitized := [], original := text, threats := [] }
  else
    let text2 := if cfg.normalizeUnicode then nfc text1 else text1
    let text3 :=
      if cfg.blockControlChars then text2.filter (fun c => !isCtlChar c)
      else text2
    let threats := threats0 ++
      (if detectXss text3 then [Threat.xss] else []) ++
      (if detectSql text3 then [Threat.sqlInjection] else []) ++
      (if detectCmd text3 ∧ cfg.level = .strict
       then [Threat.commandInjection] else []) ++
      (if detectPath text3 then [Threat.pathTraversal] else [])
    let text4 := if cfg.stripHtml then stripHtmlStep text3 else text3
    let text5 := if cfg.normalizeWs then normalizeWhitespace text4 else text4
    { isValid := determineValidity cfg.level threats,
      sanitized := text5, original := text, threats := threats }

end Validator

/-! # Section 6: cost tracker (src/core/observability/cost_tracker.py) -/

namespace Cost

/-- ModelPricing. -/
structure Pricing where
  inputPricePer1k : ℚ
  outputPricePer1k : ℚ
  cachedInputPricePer1k : ℚ := 0
  deriving DecidableEq, Repr

/-- BudgetConfig. -/
structure BudgetConfig where
  dailyLimit : Option ℚ := none
  monthlyLimit : Option ℚ := none
  perUserDailyLimit : Option ℚ := none
  alertThresholds : List ℚ := [1/2, 4/5, 19/20]
  deriving DecidableEq, Repr

/-- Lookup in an association list (the model of the Python dict keyed
by strings). -/
def alistGet (l : List (String × ℚ)) (k : String) : Option ℚ :=
  (l.find? (fun p => decide (p.1 = k))).map (fun p => p.2)

/-- Update-or-insert in an association list. -/
def alistAdd (l : List (String × ℚ)) (k : String) (v : ℚ) :
    List (String × ℚ) :=
  match l.find? (fun p => decide (p.1 = k)) with
  | some _ => l.map (fun p => if p.1 = k then (p.1, p.2 + v) else p)
  | none => l ++ [(k, v)]

/-- The CostTracker state the budget claims touch: the fast daily
cost counters keyed by date, the per-user daily counters keyed by
(user, date), and the alert-threshold memory that is shared across
budget types.  The bounded record list feeds only summaries. -/
structure CostState where
  dailyCosts : List (String × ℚ)
  userDailyCosts : List (String × List (String × ℚ))
  lastAlertThreshold : ℚ
  deriving DecidableEq, Repr

/-- CostTracker._calculate_cost: per-model pricing, or the flat
estimate for unknown models. -/
def calculateCost (pricing : List (String × Pricing)) (model : String)
    (inputTokens outputTokens cachedTokens : ℕ) : ℚ :=
  match (pricing.find? (fun p => decide (p.1 = model))).map (fun p => p.2) with
  | none => ((inputTokens : ℚ) + (outputTokens : ℚ)) * (1 / 100000)
  | some pr =>
      (inputTokens : ℚ) / 1000 * pr.inputPricePer1k +
        (outputTokens : ℚ) / 1000 * pr.outputPricePer1k +
        (cachedTokens : ℚ) / 1000 * pr.cachedInputPricePer1k

/-- One budget alert invocation: (budget_type, current, limit), the
observer arguments. -/
structure BudgetAlert where
  budgetType : String
  current : ℚ
  limit : ℚ
  deriving DecidableEq, Repr

/-- CostTracker._check_threshold for one budget type, when an
on_budget_alert observer is configured: walk alert_thresholds in
order and fire on the first threshold that the spend ratio reaches
and that exceeds the remembered _last_alert_threshold, then remember
it and stop. -/
def checkThreshold (cfg : BudgetConfig) (budgetType : String)
    (current limit : ℚ) (lastThreshold : ℚ) : List BudgetAlert × ℚ :=
  let ratio := if 0 < limit then current / limit else 0
  match cfg.alertThresholds.find?
      (fun th => decide (th ≤ ratio ∧ lastThreshold < th)) with
  | some th => ([⟨budgetType, current, limit⟩], th)
  | none => ([], lastThreshold)

/-- CostTracker._check_budgets, when an on_budget_alert observer is
configured.  Only the daily limit and the per-user daily limit are
examined; the monthly limit is not consulted here. -/
def checkBudgets (cfg : BudgetConfig) (dateKey : String)
    (userId : Option String) (st : CostState) : List BudgetAlert × CostState :=
  let dailyStep :=
    match cfg.dailyLimit with
    | some l =>
        checkThreshold cfg "daily" ((alistGet st.dailyCosts dateKey).getD 0) l
          st.lastAlertThreshold
    | none => ([], st.lastAlertThreshold)
  let userStep :=
    match userId, cfg.perUserDailyLimit with
    | some u, some l =>
        let userCosts : List (String × ℚ) := ((st.userDailyCosts.find?
          (fun (p : String × List (String × ℚ)) => decide (p.1 = u))).map
            Prod.snd).getD []
        checkThreshold cfg ("user_" ++ u ++ "_daily")
          ((alistGet userCosts dateKey).getD 0) l dailyStep.2
    | _, _ => ([], dailyStep.2)
  (dailyStep.1 ++ userStep.1, { st with lastAlertThreshold := userStep.2 })

/-- CostTracker.record_usage, at the date dateKey (the
time.strftime("%Y-%m-%d") key of the instant of the call): price the
usage, bump the daily and per-user counters, then run the budget
check.  Returns the cost of the record and the observer invocations
made. -/
def recordUsage (pricing : List (String × Pricing)) (cfg : BudgetConfig)
    (model : String) (inputTokens outputTokens cachedTokens : ℕ)
    (userId : Option String) (dateKey : String) (st : CostState) :
    (ℚ × List BudgetAlert) × CostState :=
  let cost := calculateCost pricing model inputTokens outputTokens cachedTokens
  let st1 := { st with dailyCosts := alistAdd st.dailyCosts dateKey cost }
  let st2 :=
    match userId with
    | some u =>
        let userCosts := ((st1.userDailyCosts.find?
          (fun p => decide (p.1 = u))).map (fun p => p.2)).getD []
        let updated := alistAdd userCosts dateKey cost
        { st1 with userDailyCosts :=
            match st1.userDailyCosts.find? (fun p => decide (p.1 = u)) with
            | some _ => st1.userDailyCosts.map
                (fun p => if p.1 = u then (p.1, updated) else p)
            | none => st1.userDailyCosts ++ [(u, updated)] }
    | none => st1
  let checked := checkBudgets cfg dateKey userId st2
  ((cost, checked.1), checked.2)

/-- The monthly-budget obligation the claim asserts of record_usage:
whenever a monthly limit is configured and the monthly spend reaches
an alert threshold above the remembered one, at least one observer
invocation names that budget.  monthSpend is the sum of the daily
counters of the current month, as get_remaining_budget computes
it. -/
def monthlyAlertAsClaimed (cfg : BudgetConfig) (monthKey : String)
    (st : CostState) (fired : List BudgetAlert) : Prop :=
  ∀ l, cfg.monthlyLimit = some l →
    let monthSpend := ((st.dailyCosts.filter
      (fun p => monthKey.data.isPrefixOf p.1.data)).map (fun p => p.2)).sum
    (∃ th ∈ cfg.alertThresholds,
        th ≤ (if 0 < l then monthSpend / l else 0) ∧
        st.lastAlertThreshold < th) →
    fired ≠ []

end Cost

/-! # Section 7: SLO tracker (src/core/observability/slo_definitions.py) -/

namespace SLOm

/-- SLIType. -/
inductive SLIType where
  | availability
  | latency
  | errorRate
  | throughput
  | quality
  deriving DecidableEq, Repr

/-- ComplianceStatus. -/
inductive Compliance where
  | compliant
  | atRisk
  | violated
  deriving DecidableEq, Repr

/-- SLO (the SLI record contributes only its type). -/
structure SLO where
  sliType : SLIType
  target : ℚ
  windowSeconds : ℚ := 2592000
  isUpperBound : Bool := true
  deriving DecidableEq, Repr

/-- SLOEvent. -/
structure Event where
  timestamp : ℚ
  value : ℚ
  isGood : Bool
  deriving DecidableEq, Repr

/-- The SLOTracker state: the event deque (oldest first) and the two
mirror counters. -/
structure TrackerState where
  events : List Event
  totalEvents : ℕ
  goodEvents : ℕ
  deriving DecidableEq, Repr

/-- A fresh tracker. -/
def freshTracker : TrackerState := ⟨[], 0, 0⟩

/-- SLOTracker._cleanup_old_events: pop from the front while the
front timestamp is older than now minus the window, decrementing the
counters. -/
def cleanup (slo : SLO) (now : ℚ) (st : TrackerState) : TrackerState :=
  match _h : st.events with
  | [] => st
  | e :: rest =>
      if e.timestamp < now - slo.windowSeconds then
        cleanup slo now
          { events := rest, totalEvents := st.totalEvents - 1,
            goodEvents := st.goodEvents - (if e.isGood then 1 else 0) }
      else st
termination_by st.events.length
decreasing_by simp [_h]

/-- SLOTracker.record_event. -/
def recordEvent (slo : SLO) (now : ℚ) (isGood : Bool) (value : Option ℚ)
    (st : TrackerState) : TrackerState :=
  let event : Event :=
    { timestamp := now,
      value := value.getD (if isGood then 1 else 0),
      isGood := isGood }
  cleanup slo now
    { events := st.events ++ [event],
      totalEvents := st.totalEvents + 1,
      goodEvents := st.goodEvents + (if isGood then 1 else 0) }

/-- SLOTracker.get_current_value on an already cleaned-up state. -/
def currentValueClean (slo : SLO) (st : TrackerState) : ℚ :=
  if st.totalEvents = 0 then 100
  else
    match slo.sliType with
    | .availability => (st.goodEvents : ℚ) / (st.totalEvents : ℚ) * 100
    | .errorRate =>
        ((st.totalEvents : ℚ) - (st.goodEvents : ℚ)) / (st.totalEvents : ℚ) *
          100
    | _ =>
        if st.events.length = 0 then 0
        else ((st.events.map (fun e => e.value)).sum : ℚ) /
          (st.events.length : ℚ)

/-- SLOTracker.get_current_value. -/
def getCurrentValue (slo : SLO) (now : ℚ) (st : TrackerState) : ℚ :=
  currentValueClean slo (cleanup slo now st)

/-- SLOTracker.get_error_budget_remaining on an already cleaned-up
state. -/
def errorBudgetClean (slo : SLO) (st : TrackerState) : ℚ :=
  if st.totalEvents = 0 then 100
  else
    match slo.sliType with
    | .availability =>
        let allowedBad := (st.totalEvents : ℚ) * (100 - slo.target) / 100
        let actualBad := (st.totalEvents : ℚ) - (st.goodEvents : ℚ)
        if allowedBad ≤ 0 then (if actualBad = 0 then 100 else 0)
        else max 0 (min 100 ((allowedBad - actualBad) / allowedBad * 100))
    | _ =>
        let current := currentValueClean slo st
        if slo.isUpperBound then
          max 0 ((slo.target - current) / slo.target * 100 + 100)
        else max 0 (current / slo.target * 100)

/-- SLOTracker.get_error_budget_remaining. -/
def getErrorBudgetRemaining (slo : SLO) (now : ℚ) (st : TrackerState) : ℚ :=
  errorBudgetClean slo (cleanup slo now st)

/-- The burn rate, with none standing for the float("inf") branch. -/
def burnRateClean (slo : SLO) (now : ℚ) (st : TrackerState) : Option ℚ :=
  let shortStart := now - 3600
  let shortEvents := st.events.filter (fun e => decide (shortStart ≤ e.timestamp))
  let shortTotal := shortEvents.length
  let shortGood := (shortEvents.filter (fun e => e.isGood)).length
  if shortTotal = 0 then some 0
  else
    let shortErrorRate := ((shortTotal : ℚ) - (shortGood : ℚ)) / (shortTotal : ℚ)
    let sustainable := (100 - slo.target) / 100
    if sustainable ≤ 0 then
      (if 0 < shortErrorRate then none else some 0)
    else some (shortErrorRate / sustainable)

/-- Comparison burn_rate > 1 where none is the infinite burn rate. -/
def burnAboveOne : Option ℚ → Bool
  | none => true
  | some r => decide (1 < r)

/-- Python round(x, d): round half to even at d decimal digits. -/
def pyRound (d : ℕ) (q : ℚ) : ℚ :=
  let scaled := q * (10 ^ d : ℕ)
  let fl : ℤ := ⌊scaled⌋
  let frac := scaled - fl
  let r : ℤ :=
    if frac < 1/2 then fl
    else if 1/2 < frac then fl + 1
    else if 2 ∣ fl then fl else fl + 1
  (r : ℚ) / (10 ^ d : ℕ)

/-- SLOStatus, with the fields the claims are about. -/
structure Status where
  currentValue : ℚ
  target : ℚ
  errorBudgetRemaining : ℚ
  compliance : Compliance
  burnRate : Option ℚ
  deriving DecidableEq, Repr

/-- SLOTracker.get_status.  The three reads clean up the deque with
the same instant; the compliance decision uses the unrounded error
budget and burn rate, while the reported fields are rounded like the
source rounds them. -/
def getStatus (slo : SLO) (now : ℚ) (st : TrackerState) : Status :=
  let st1 := cleanup slo now st
  let currentValue := currentValueClean slo st1
  let errorBudget := errorBudgetClean slo st1
  let burn := burnRateClean slo now st1
  let compliance :=
    if errorBudget ≤ 0 then Compliance.violated
    else if errorBudget ≤ 20 ∨ burnAboveOne burn then Compliance.atRisk
    else Compliance.compliant
  { currentValue := pyRound 4 currentValue,
    target := slo.target,
    errorBudgetRemaining := pyRound 2 errorBudget,
    compliance := compliance,
    burnRate := burn.map (pyRound 2) }

end SLOm

/-! # Section 8: alert manager (src/core/observability/alerting.py) -/

namespace Alerting

/-- AlertSeverity. -/
inductive Severity where
  | info
  | warning
  | error
  | critical
  deriving DecidableEq, Repr

/-- The Alert fields send_alert consults.  The fingerprint is
computed at construction from name, source and labels; it is carried
as data here. -/
structure Alert where
  name : String
  severity : Severity
  source : String
  labels : List (String × String)
  fingerprint : String
  deriving DecidableEq, Repr

/-- A routing rule added by add_route. -/
structure Route where
  channels : List String
  severities : Option (List Severity)
  sources : Option (List String)
  labels : Option (List (String × String))
  deriving DecidableEq, Repr

/-- The AlertManager state: configuration, the fingerprint
last-seen map, and the per-minute rate-limit counter and window
start. -/
structure MgrState where
  dedupWindow : ℚ
  rateLimit : ℕ
  channels : List String
  routes : List Route
  seenFingerprints : List (String × ℚ)
  sentCount : ℕ
  sentWindowStart : ℚ
  deriving DecidableEq, Repr

/-- The fingerprint map pruned to the entries still inside the dedup
window at the given instant (the filter _should_dedupe applies before
consulting the map). -/
def pruneSeen (now : ℚ) (st : MgrState) : List (String × ℚ) :=
  st.seenFingerprints.filter (fun p => decide (now - st.dedupWindow < p.2))

/-- AlertManager._should_dedupe: expire old fingerprints, drop the
alert if its fingerprint is still present, otherwise record the
fingerprint now. -/
def shouldDedupe (now : ℚ) (a : Alert) (st : MgrState) : Bool × MgrState :=
  let cutoff := now - st.dedupWindow
  let kept := st.seenFingerprints.filter (fun p => decide (cutoff < p.2))
  if kept.any (fun p => decide (p.1 = a.fingerprint)) then
    (true, { st with seenFingerprints := kept })
  else
    (false, { st with seenFingerprints := kept ++ [(a.fingerprint, now)] })

/-- AlertManager._check_rate_limit. -/
def checkRateLimit (now : ℚ) (st : MgrState) : Bool × MgrState :=
  let st1 :=
    if 60 < now - st.sentWindowStart then
      { st with sentCount := 0, sentWindowStart := now }
    else st
  if st1.rateLimit ≤ st1.sentCount then (false, st1)
  else (true, { st1 with sentCount := st1.sentCount + 1 })

/-- Whether a routing rule matches an alert: every configured filter
must pass, with labels matched exactly. -/
def routeMatches (a : Alert) (r : Route) : Bool :=
  (match r.severities with
   | some sevs => sevs.any (fun s => decide (s = a.severity))
   | none => true) &&
  (match r.sources with
   | some srcs => srcs.any (fun s => decide (s = a.source))
   | none => true) &&
  (match r.labels with
   | some reqd => reqd.all (fun kv =>
       (a.labels.find? (fun p => decide (p.1 = kv.1))).map
         (fun p => p.2) = some kv.2)
   | none => true)

/-- AlertManager._get_channels_for_alert: the union of the channels
of every matching route; all channels when no routes are configured
at all. -/
def channelsForAlert (a : Alert) (st : MgrState) : List String :=
  let matched := ((st.routes.filter (routeMatches a)).map
    (fun r => r.channels)).flatten.eraseDups
  if matched.isEmpty ∧ st.routes.isEmpty then st.channels else matched

/-- AlertManager.send_alert without the skip flags: dedupe, then rate
limit, then dispatch to every known target channel.  The returned
list contains the names of the channels actually sent to (the keys
of the Python result dict). -/
def sendAlert (now : ℚ) (a : Alert) (st : MgrState) :
    List String × MgrState :=
  let dd := shouldDedupe now a st
  if dd.1 then ([], dd.2)
  else
    let rl := checkRateLimit now dd.2
    if !rl.1 then ([], rl.2)
    else
      let targets := (channelsForAlert a rl.2).filter
        (fun c => rl.2.channels.any (fun k => decide (k = c)))
      (targets, rl.2)

/-- A sequence of send_alert calls at the given instants, discarding
the per-call results. -/
def runSends : List (ℚ × Alert) → MgrState → MgrState
  | [], st => st
  | (t, a) :: rest, st => runSends rest (sendAlert t a st).2

end Alerting

/-! # Section 9: derived response forms used by the statements -/

namespace RateLim

/-- The response _check_sliding_window builds from the oldest
surviving timestamp o, the current instant t and the post-increment
count, used to characterize runs of checks. -/
def expectedResp (L : ℕ) (W o t : ℚ) (count : ℕ) : RLResponse :=
  if L < count then
    { result := .denied, limit := (L : ℚ), remaining := 0, resetAt := o + W,
      retryAfter := some (max 0 (o + W - t)) }
  else
    { result := .allowed, limit := (L : ℚ),
      remaining := max 0 ((L : ℤ) - count), resetAt := o + W,
      retryAfter := none }

/-- The responses a run of sliding-window checks produces when no
entry ever expires: position j sees count n + j + 1 (n entries
already stored) and oldest surviving timestamp o. -/
def expectedList (L : ℕ) (W o : ℚ) (n : ℕ) : List ℚ → List RLResponse
  | [] => []
  | t :: ts => expectedResp L W o t (n + 1) :: expectedList L W o (n + 1) ts

end RateLim

namespace Validator

/-- No two adjacent spaces (the normal form re.sub(" +", " ", _)
produces). -/
def noDoubleSpace : List Char → Bool
  | a :: b :: rest => !(a = ' ' && b = ' ') && noDoubleSpace (b :: rest)
  | _ => true

/-- No three adjacent newlines (the normal form the newline collapse
produces). -/
def noTripleNl : List Char → Bool
  | a :: b :: c :: rest =>
      !(a = '\n' && b = '\n' && c = '\n') && noTripleNl (b :: c :: rest)
  | _ => true

/-- Neither end of the text is whitespace (the normal form
str.strip() produces). -/
def noEdgeWs (s : List Char) : Bool :=
  (match s.head? with
   | some c => !isWsChar c
   | none => true) &&
  (match s.getLast? with
   | some c => !isWsChar c
   | none => true)

end Validator

/-! # Theorems.  One theorem per claim (with its counterexample or
witness where the claim calls for one), preceded by the supporting
lemmas. -/
/-- Claim C1, counterexample.  Take a bucket storing 2 tokens last
updated at time 0, capacity 10, refill rate 1, a consume of cost 1 at
time 3.  The claimed behaviour refills once to min(10, 2 + 3) = 5 and
persists 5 - 1 = 4 tokens; the code persists
min(10, 5 + 3) - 1 = 7 tokens, refilling twice.  And on a failing
consume (cost 5 against a bucket holding 1 token at capacity 4) the
claimed behaviour persists the refilled value 4, while the code
leaves the stored pair untouched. -/
theorem tokenBucket_counterexample :
    (RateLim.consumeTokens 3 1 10 1 (some ⟨2, 0⟩)
        = (true, some ⟨7, 3⟩) ∧
      RateLim.consumeTokensSpec 3 1 10 1 ⟨2, 0⟩
        = (true, some ⟨4, 3⟩)) ∧
    (RateLim.consumeTokens 3 5 4 1 (some ⟨1, 0⟩)
        = (false, some ⟨1, 0⟩) ∧
      RateLim.consumeTokensSpec 3 5 4 1 ⟨1, 0⟩
        = (false, some ⟨4, 3⟩)) := by
  refine ⟨⟨?_, ?_⟩, ?_, ?_⟩ <;>
    simp [RateLim.consumeTokens, RateLim.consumeTokensSpec,
      RateLim.getTokens] <;> norm_num

/-- Claim C1, amended.  On a key whose bucket stores (t, u), a
token-bucket check at time now with cost c and refill rate
R = requests_per_window / window_seconds decides against the
once-refilled balance a = min(C, t + (now - u) * R); on success it
persists the twice-refilled balance min(C, a + (now - u) * R) minus
the cost, stamped at now; on failure it persists nothing (the stored
pair is unchanged) and reports retry_after = (c - a) / R. -/
theorem tokenBucket_check_amended (L W C now cost t u : ℚ) :
    ((RateLim.checkTokenBucket L W C now cost (some ⟨t, u⟩)).1.result
        = RateLim.RLResult.allowed ↔
      cost ≤ min C (t + (now - u) * (L / W))) ∧
    (RateLim.checkTokenBucket L W C now cost (some ⟨t, u⟩)).2 =
      (if cost ≤ min C (t + (now - u) * (L / W)) then
        some ⟨min C (min C (t + (now - u) * (L / W)) + (now - u) * (L / W))
          - cost, now⟩
      else some ⟨t, u⟩) ∧
    (RateLim.checkTokenBucket L W C now cost (some ⟨t, u⟩)).1.retryAfter =
      (if cost ≤ min C (t + (now - u) * (L / W)) then none
       else some ((cost - min C (t + (now - u) * (L / W))) / (L / W))) := by
  by_cases h : cost ≤ min C (t + (now - u) * (L / W))
  · simp only [RateLim.checkTokenBucket, RateLim.consumeTokens,
      RateLim.getTokens, if_pos h]
    simp [h]
  · simp only [RateLim.checkTokenBucket, RateLim.consumeTokens,
      RateLim.getTokens, if_neg h]
    simp [h]

namespace RateLim

theorem le_listMin (d x : ℚ) :
    ∀ (l : List ℚ), l ≠ [] → (∀ y ∈ l, x ≤ y) → x ≤ listMin d l := by
  intro l
  induction l with
  | nil => intro h; exact absurd rfl h
  | cons a rest ih =>
      intro _ hall
      cases rest with
      | nil => simpa [listMin] using hall a (by simp)
      | cons b rest2 =>
          have h1 : x ≤ a := hall a (by simp)
          have h2 : x ≤ listMin d (b :: rest2) :=
            ih (by simp) (fun y hy => hall y (by simp [hy]))
          simp only [listMin]
          exact le_min h1 h2

theorem listMin_cons_of_le (d x : ℚ) (rest : List ℚ)
    (h : ∀ y ∈ rest, x ≤ y) : listMin d (x :: rest) = x := by
  cases rest with
  | nil => simp [listMin]
  | cons b rest2 =>
      simp only [listMin]
      exact min_eq_left (le_listMin d x (b :: rest2) (by simp)
        (fun y hy => h y hy))

/-- One sliding-window check on a store whose entries are all inside
the window, ordered, and not later than the new instant. -/
theorem checkSW_step (L : ℕ) (W t : ℚ) (pre : List ℚ)
    (hsort : pre.Pairwise (· ≤ ·))
    (hkeep : ∀ x ∈ pre, t - W < x) (hord : ∀ x ∈ pre, x ≤ t) :
    checkSlidingWindow L W t pre =
      (expectedResp L W ((pre ++ [t]).head?.getD 0) t (pre.length + 1),
        pre ++ [t]) := by
  have hfilter : pre.filter (fun ts => decide (t - W < ts)) = pre :=
    List.filter_eq_self.mpr (fun a ha => by simpa using hkeep a ha)
  have hmin : listMin t (pre ++ [t]) = (pre ++ [t]).head?.getD 0 := by
    cases pre with
    | nil => simp [listMin]
    | cons x rest =>
        have : ∀ y ∈ rest ++ [t], x ≤ y := by
          intro y hy
          rcases List.mem_append.mp hy with hy1 | hy1
          · exact List.rel_of_pairwise_cons hsort hy1
          · simp at hy1
            subst hy1
            exact hord x (by simp)
        simpa using listMin_cons_of_le t x (rest ++ [t]) this
  unfold checkSlidingWindow getAndIncrement expectedResp
  simp only [hfilter, hmin]
  by_cases hc : L < pre.length + 1
  · simp [hc]
  · simp [hc]

/-- Running checks at ordered instants all within one window span of
each other, over a store holding earlier in-window entries, appends
every instant and produces the expected responses. -/
theorem runSW_characterization (L : ℕ) (W : ℚ) :
    ∀ (ts pre : List ℚ),
      pre.Pairwise (· ≤ ·) →
      (∀ x ∈ pre, ∀ s ∈ ts, x ≤ s ∧ s - x < W) →
      ts.Pairwise (· ≤ ·) →
      (∀ a ∈ ts, ∀ b ∈ ts, a - b < W) →
      runSW L W ts pre =
        (expectedList L W ((pre ++ ts).head?.getD 0) pre.length ts,
          pre ++ ts) := by
  intro ts
  induction ts with
  | nil => intro pre _ _ _ _; simp [runSW, expectedList]
  | cons t ts' ih =>
      intro pre hpre hcross hts hspan
      have hkeep : ∀ x ∈ pre, t - W < x := by
        intro x hx
        have := (hcross x hx t (by simp)).2
        linarith
      have hord : ∀ x ∈ pre, x ≤ t :=
        fun x hx => (hcross x hx t (by simp)).1
      have hstep := checkSW_step L W t pre hpre hkeep hord
      have hpre2 : (pre ++ [t]).Pairwise (· ≤ ·) := by
        apply List.pairwise_append.mpr
        refine ⟨hpre, by simp, ?_⟩
        intro x hx y hy
        simp at hy
        subst hy
        exact hord x hx
      have hcross2 : ∀ x ∈ pre ++ [t], ∀ s ∈ ts', x ≤ s ∧ s - x < W := by
        intro x hx s hs
        rcases List.mem_append.mp hx with hx1 | hx1
        · exact hcross x hx1 s (by simp [hs])
        · simp at hx1
          subst hx1
          constructor
          · exact List.rel_of_pairwise_cons hts hs
          · exact hspan s (by simp [hs]) x (by simp)
      have hts2 : ts'.Pairwise (· ≤ ·) := (List.pairwise_cons.mp hts).2
      have hspan2 : ∀ a ∈ ts', ∀ b ∈ ts', a - b < W :=
        fun a ha b hb => hspan a (by simp [ha]) b (by simp [hb])
      have hrec := ih (pre ++ [t]) hpre2 hcross2 hts2 hspan2
      have hheads : ((pre ++ [t]) ++ ts').head?.getD 0 =
          (pre ++ t :: ts').head?.getD 0 := by
        rw [List.append_assoc]
        rfl
      have hstep1 : (checkSlidingWindow L W t pre).1 =
          expectedResp L W ((pre ++ [t]).head?.getD 0) t (pre.length + 1) := by
        rw [hstep]
      have hstep2 : (checkSlidingWindow L W t pre).2 = pre ++ [t] := by
        rw [hstep]
      have hhead1 : (pre ++ [t]).head?.getD 0 =
          (pre ++ t :: ts').head?.getD 0 := by
        cases pre <;> rfl
      simp only [runSW, hstep2, hrec, hstep1, hhead1, hheads]
      simp [expectedList, List.length_append, List.append_assoc]

theorem expectedList_getElem (L : ℕ) (W o : ℚ) :
    ∀ (ts : List ℚ) (n j : ℕ),
      (expectedList L W o n ts)[j]? =
        (ts[j]?).map (fun t => expectedResp L W o t (n + j + 1)) := by
  intro ts
  induction ts with
  | nil => intro n j; simp [expectedList]
  | cons t ts' ih =>
      intro n j
      cases j with
      | zero => simp [expectedList]
      | succ j' =>
          simp only [expectedList, List.getElem?_cons_succ, ih (n + 1) j']
          rw [show n + 1 + j' + 1 = n + (j' + 1) + 1 from by omega]

end RateLim

/-- Claim C2: a sliding-window check is allowed exactly when the
post-increment count is at most the limit L; and from an empty
window, L + 1 checks at ordered instants spanning less than W have
their first L allowed and the last denied, the denial carrying
retry_after = reset - now with reset the oldest surviving timestamp
plus W. -/
theorem slidingWindow_allow_iff_and_boundary :
    (∀ (L : ℕ) (W now : ℚ) (ws : RateLim.SWState),
      ((RateLim.checkSlidingWindow L W now ws).1.result =
          RateLim.RLResult.allowed ↔
        (RateLim.getAndIncrement now W ws).1.1 ≤ L)) ∧
    (∀ (L : ℕ) (W : ℚ) (ts : List ℚ),
      ts.length = L + 1 → ts.Pairwise (· ≤ ·) →
      (∀ a ∈ ts, ∀ b ∈ ts, a - b < W) →
      (∀ j, j < L →
        ((RateLim.runSW L W ts []).1.map (fun r => r.result))[j]? =
          some RateLim.RLResult.allowed) ∧
      ((RateLim.runSW L W ts []).1.map (fun r => r.result))[L]? =
        some RateLim.RLResult.denied ∧
      ((RateLim.runSW L W ts []).1.map (fun r => r.retryAfter))[L]? =
        some (some (ts.head?.getD 0 + W - ts.getLast?.getD 0))) := by
  constructor
  · intro L W now ws
    unfold RateLim.checkSlidingWindow
    by_cases hc : L < (RateLim.getAndIncrement now W ws).1.1
    · simp only [if_pos hc]
      constructor
      · intro h; exact absurd h (by simp)
      · intro h; omega
    · simp only [if_neg hc]
      constructor
      · intro _; omega
      · intro _; trivial
  · intro L W ts hlen hsorted hspan
    have hrun := RateLim.runSW_characterization L W ts []
      (by simp) (by simp) hsorted hspan
    have hresp : (RateLim.runSW L W ts []).1 =
        RateLim.expectedList L W (ts.head?.getD 0) 0 ts := by
      rw [hrun]
      simp
    have hget : ∀ j, ((RateLim.runSW L W ts []).1)[j]? =
        (ts[j]?).map (fun t =>
          RateLim.expectedResp L W (ts.head?.getD 0) t (j + 1)) := by
      intro j
      rw [hresp, RateLim.expectedList_getElem]
      simp
    refine ⟨?_, ?_, ?_⟩
    · intro j hj
      have hjlen : j < ts.length := by omega
      rw [List.getElem?_map, hget j, List.getElem?_eq_getElem hjlen]
      simp only [Option.map_some']
      have : ¬ (L < j + 1) := by omega
      simp [RateLim.expectedResp, this]
    · have hL : L < ts.length := by omega
      rw [List.getElem?_map, hget L, List.getElem?_eq_getElem hL]
      simp only [Option.map_some']
      simp [RateLim.expectedResp]
    · have hL : L < ts.length := by omega
      rw [List.getElem?_map, hget L, List.getElem?_eq_getElem hL]
      simp only [Option.map_some']
      have hlast : ts.getLast?.getD 0 = ts[L] := by
        rw [List.getLast?_eq_getElem?]
        rw [hlen]
        simp [List.getElem?_eq_getElem hL]
      have hmem : ts[L] ∈ ts := List.getElem_mem hL
      have hheadmem : ts.head?.getD 0 ∈ ts := by
        cases ts with
        | nil => simp at hlen
        | cons a l => simp
      have hpos : 0 ≤ ts.head?.getD 0 + W - ts[L] := by
        have := hspan (ts[L]) hmem (ts.head?.getD 0) hheadmem
        linarith
      simp only [RateLim.expectedResp, Nat.lt_succ_self, if_pos]
      rw [hlast]
      simp [max_eq_right hpos]


/-- A witness run for claim C2: limit 2, window 10, three checks at
time 0 from an empty store; the third is denied with retry_after
10. -/
theorem slidingWindow_boundary_witness :
    ((RateLim.runSW 2 10 [0, 0, 0] []).1.map (fun r => r.result))[2]? =
        some RateLim.RLResult.denied ∧
    ((RateLim.runSW 2 10 [0, 0, 0] []).1.map (fun r => r.retryAfter))[2]? =
        some (some 10) := by
  have h := (slidingWindow_allow_iff_and_boundary.2 2 10 [0, 0, 0]
    (by rfl) (by simp)
    (by intro a ha b hb; simp at ha hb; rw [ha, hb]; norm_num))
  refine ⟨h.2.1, ?_⟩
  simpa using h.2.2

namespace Circuit

/-- record_failure on an open breaker only updates the rolling
window. -/
theorem recordFailure_open (now : ℚ) (cfg : CConfig) (cb : CB)
    (h : cb.state = .opn) :
    (recordFailure now cfg false cb).state = .opn ∧
    (recordFailure now cfg false cb).openTime = cb.openTime := by
  obtain ⟨st, fc, sc, ot, rs⟩ := cb
  change st = CState.opn at h
  subst h
  simp [recordFailure]

/-- A run of failures on an open breaker keeps it open and keeps the
open-entry stamp. -/
theorem recordFailures_open (cfg : CConfig) :
    ∀ (ts : List ℚ) (cb : CB), cb.state = .opn →
      (recordFailures cfg ts cb).state = .opn ∧
      (recordFailures cfg ts cb).openTime = cb.openTime := by
  intro ts
  induction ts with
  | nil => intro cb h; exact ⟨h, rfl⟩
  | cons t ts' ih =>
      intro cb h
      have hstep := recordFailure_open t cfg cb h
      have hrec := ih (recordFailure t cfg false cb) hstep.1
      refine ⟨?_, ?_⟩ <;> simp only [recordFailures]
      · exact hrec.1
      · rw [hrec.2, hstep.2]

/-- A run of non-excluded failures on a closed breaker either keeps
it closed with the failure counter advanced by the run length (and
below the threshold when the run is nonempty), or has tripped it
open with the open stamp taken from one of the failure instants. -/
theorem recordFailures_closed (cfg : CConfig) :
    ∀ (ts : List ℚ) (cb : CB), cb.state = .closed →
      ((recordFailures cfg ts cb).state = .closed ∧
        (recordFailures cfg ts cb).failureCount =
          cb.failureCount + ts.length ∧
        (ts ≠ [] →
          (recordFailures cfg ts cb).failureCount < cfg.failureThreshold)) ∨
      ((recordFailures cfg ts cb).state = .opn ∧
        ∃ t ∈ ts, (recordFailures cfg ts cb).openTime = some t) := by
  intro ts
  induction ts with
  | nil =>
      intro cb h
      exact Or.inl ⟨h, by simp [recordFailures], by simp⟩
  | cons t ts' ih =>
      intro cb h
      obtain ⟨st, fc, sc, ot, rs⟩ := cb
      change st = CState.closed at h
      subst h
      have hred : recordFailure t cfg false ⟨CState.closed, fc, sc, ot, rs⟩ =
          (if cfg.failureThreshold ≤ fc + 1 then
            (⟨CState.opn, fc + 1, sc, some t,
              pushWindow cfg.windowSize rs false⟩ : CB)
          else if cfg.windowSize ≤ (pushWindow cfg.windowSize rs false).length ∧
              cfg.failureRateThreshold ≤
                failureRate (pushWindow cfg.windowSize rs false) then
            (⟨CState.opn, fc + 1, sc, some t,
              pushWindow cfg.windowSize rs false⟩ : CB)
          else (⟨CState.closed, fc + 1, sc, ot,
            pushWindow cfg.windowSize rs false⟩ : CB)) := by
        simp only [recordFailure, transitionTo]
        split <;> split <;> simp_all
      simp only [recordFailures, hred]
      by_cases hc1 : cfg.failureThreshold ≤ fc + 1
      · rw [if_pos hc1]
        right
        have hop := recordFailures_open cfg ts'
          ⟨CState.opn, fc + 1, sc, some t, pushWindow cfg.windowSize rs false⟩
          rfl
        exact ⟨hop.1, t, by simp, by rw [hop.2]⟩
      · rw [if_neg hc1]
        by_cases hc2 : cfg.windowSize ≤ (pushWindow cfg.windowSize rs false).length ∧
            cfg.failureRateThreshold ≤
              failureRate (pushWindow cfg.windowSize rs false)
        · rw [if_pos hc2]
          right
          have hop := recordFailures_open cfg ts'
            ⟨CState.opn, fc + 1, sc, some t,
              pushWindow cfg.windowSize rs false⟩ rfl
          exact ⟨hop.1, t, by simp, by rw [hop.2]⟩
        · rw [if_neg hc2]
          rcases ih ⟨CState.closed, fc + 1, sc, ot,
              pushWindow cfg.windowSize rs false⟩ rfl with hcl | hop
          · left
            refine ⟨hcl.1, ?_, ?_⟩
            · rw [hcl.2.1]
              simp only [List.length_cons]
              omega
            · intro _
              rcases ts' with _ | ⟨a, l⟩
              · simp only [recordFailures]
                change fc + 1 < cfg.failureThreshold
                omega
              · exact hcl.2.2 (by simp)
          · right
            obtain ⟨t', ht', hot'⟩ := hop.2
            exact ⟨hop.1, t', by simp [ht'], hot'⟩

end Circuit


/-- Claim C3: a closed breaker that records failure_threshold
consecutive non-excluded failures rejects the next can_execute
(probed before the open timeout has elapsed); and an open breaker
whose timeout has elapsed answers its first subsequent can_execute
with true and moves to half-open. -/
theorem circuit_threshold_and_recovery (cfg : Circuit.CConfig)
    (hth : 0 < cfg.failureThreshold) (cb0 : Circuit.CB)
    (h0 : cb0.state = .closed) (ts : List ℚ)
    (hlen : ts.length = cfg.failureThreshold) (now : ℚ)
    (hnow : ∀ t ∈ ts, now - t < cfg.timeoutSeconds)
    (cb1 : Circuit.CB) (ot now2 : ℚ) (h1 : cb1.state = .opn)
    (hot : cb1.openTime = some ot) (hotpos : 0 < ot)
    (helapsed : cfg.timeoutSeconds ≤ now2 - ot) :
    (Circuit.canExecute now cfg (Circuit.recordFailures cfg ts cb0)).1 =
      false ∧
    (Circuit.canExecute now2 cfg cb1).1 = true ∧
    (Circuit.canExecute now2 cfg cb1).2.state = .halfOpen := by
  refine ⟨?_, ?_⟩
  · rcases Circuit.recordFailures_closed cfg ts cb0 h0 with hcl | hop
    · exfalso
      have hne : ts ≠ [] := by
        intro hnil
        rw [hnil] at hlen
        simp at hlen
        omega
      have hlt := hcl.2.2 hne
      rw [hcl.2.1, hlen] at hlt
      omega
    · obtain ⟨hst, t, htmem, hopen⟩ := hop
      unfold Circuit.canExecute Circuit.checkStateTransition
      rw [hst, hopen]
      have hguard : ¬ (t ≠ 0 ∧ cfg.timeoutSeconds ≤ now - t) := by
        intro hgu
        have := hnow t htmem
        linarith [hgu.2]
      simp only [if_pos rfl, if_neg hguard]
      simp [hst]
  · unfold Circuit.canExecute Circuit.checkStateTransition
    rw [h1, hot]
    have hguard : ot ≠ 0 ∧ cfg.timeoutSeconds ≤ now2 - ot :=
      ⟨by intro hz; rw [hz] at hotpos; exact absurd hotpos (by norm_num),
        helapsed⟩
    simp only [if_pos rfl, if_pos hguard]
    unfold Circuit.transitionTo
    rw [h1]
    simp

/-- A witness run for claim C3: threshold 2, timeout 5; two failures
at times 10 and 11 on a fresh breaker, probed at time 12; and an
open breaker stamped at time 10 probed at time 20. -/
theorem circuit_threshold_witness :
    (Circuit.canExecute 12 ⟨2, 3, 5, 1/2, 10⟩
      (Circuit.recordFailures ⟨2, 3, 5, 1/2, 10⟩ [10, 11]
        ⟨.closed, 0, 0, none, []⟩)).1 = false ∧
    (Circuit.canExecute 20 ⟨2, 3, 5, 1/2, 10⟩
      ⟨.opn, 2, 0, some 10, []⟩).1 = true ∧
    (Circuit.canExecute 20 ⟨2, 3, 5, 1/2, 10⟩
      ⟨.opn, 2, 0, some 10, []⟩).2.state = .halfOpen :=
  circuit_threshold_and_recovery ⟨2, 3, 5, 1/2, 10⟩ (by norm_num)
    ⟨.closed, 0, 0, none, []⟩ rfl [10, 11] (by rfl) 12
    (by intro t ht
        simp at ht
        rcases ht with h | h <;> rw [h] <;> norm_num)
    ⟨.opn, 2, 0, some 10, []⟩ 10 20 rfl rfl (by norm_num) (by norm_num)

/-- Claim C5, counterexample.  First run: max_attempts 3, base 1,
exponential, no jitter, total_timeout 5, an always-retryable failure,
elapsed readings 0 then 6.  The run times out entering attempt 2 with
attempts = 1 and one recorded delay, so len(delays) = attempts, not
attempts - 1.  Second run: constant backoff, jitter range
[0.8, 1.2], jitter sample 0.8: the recorded delay 0.8 violates
base <= delay / jitter_hi since 0.8 / 1.2 < 1 = base. -/
theorem retry_counterexample :
    Retry.execute ⟨3, 1, 60, .exponential, 2, false, 8/10, 12/10, some 5⟩
        (fun _ => .err true) (fun n => if n = 1 then 0 else 6)
        (fun _ => 1) =
      ⟨.timeout, 1, [1]⟩ ∧
    Retry.execute ⟨2, 1, 60, .constant, 2, true, 8/10, 12/10, none⟩
        (fun _ => .err true) (fun _ => 0) (fun _ => 8/10) =
      ⟨.exhausted, 2, [8/10]⟩ ∧
    ¬ ((1 : ℚ) ≤ (8/10) / (12/10)) := by
  refine ⟨?_, ?_, by norm_num⟩
  · rw [Retry.execute]
    rw [Retry.execAux]
    norm_num
    rw [Retry.execAux]
    norm_num [Retry.calcDelay]
  · rw [Retry.execute]
    rw [Retry.execAux]
    norm_num [Retry.calcDelay]
    rw [Retry.execAux]
    norm_num
    rw [Retry.execAux]
    norm_num

namespace Retry

/-- Bounds on one computed delay when the jitter sample lies in the
configured range, the base does not exceed the cap, and the growth
factors are at least one. -/
theorem calcDelay_bound (cfg : RConfig) (u : ℚ) (n : ℕ)
    (hjit : cfg.jitter = true) (hlo : 0 < cfg.jitterLo)
    (hu1 : cfg.jitterLo ≤ u) (hu2 : u ≤ cfg.jitterHi)
    (hbase : 0 ≤ cfg.baseDelay) (hcap : cfg.baseDelay ≤ cfg.maxDelay)
    (hmul : 1 ≤ cfg.multiplier) (hn : 1 ≤ n) :
    cfg.baseDelay * cfg.jitterLo ≤ calcDelay cfg u n ∧
    calcDelay cfg u n ≤ cfg.maxDelay * cfg.jitterHi := by
  have hraw : cfg.baseDelay ≤
      (match cfg.strategy with
       | .constant => cfg.baseDelay
       | .linear => cfg.baseDelay * (n : ℚ)
       | .exponential => cfg.baseDelay * cfg.multiplier ^ (n - 1)
       | .fibonacci => cfg.baseDelay * (Nat.fib n : ℚ)) := by
    cases cfg.strategy with
    | constant => show cfg.baseDelay ≤ cfg.baseDelay; exact le_refl _
    | linear =>
        show cfg.baseDelay ≤ cfg.baseDelay * (n : ℚ)
        have : (1 : ℚ) ≤ (n : ℚ) := by exact_mod_cast hn
        nlinarith
    | exponential =>
        show cfg.baseDelay ≤ cfg.baseDelay * cfg.multiplier ^ (n - 1)
        have : (1 : ℚ) ≤ cfg.multiplier ^ (n - 1) := one_le_pow₀ hmul
        nlinarith
    | fibonacci =>
        show cfg.baseDelay ≤ cfg.baseDelay * (Nat.fib n : ℚ)
        have hfib : 1 ≤ Nat.fib n := Nat.fib_pos.mpr (by omega)
        have : (1 : ℚ) ≤ (Nat.fib n : ℚ) := by exact_mod_cast hfib
        nlinarith
  unfold calcDelay
  rw [hjit]
  set raw := (match cfg.strategy with
       | Strategy.constant => cfg.baseDelay
       | Strategy.linear => cfg.baseDelay * (n : ℚ)
       | Strategy.exponential => cfg.baseDelay * cfg.multiplier ^ (n - 1)
       | Strategy.fibonacci => cfg.baseDelay * (Nat.fib n : ℚ)) with hrawdef
  have hc1 : cfg.baseDelay ≤ min raw cfg.maxDelay := le_min hraw hcap
  have hc2 : min raw cfg.maxDelay ≤ cfg.maxDelay := min_le_right _ _
  have h0cap : (0 : ℚ) ≤ min raw cfg.maxDelay := le_trans hbase hc1
  simp only [if_pos rfl]
  constructor
  · calc cfg.baseDelay * cfg.jitterLo
        ≤ min raw cfg.maxDelay * u :=
          mul_le_mul hc1 hu1 (le_of_lt hlo) h0cap
      _ = _ := rfl
  · calc min raw cfg.maxDelay * u
        ≤ cfg.maxDelay * cfg.jitterHi :=
          mul_le_mul hc2 hu2 (le_trans (le_of_lt hlo) hu1)
            (le_trans hbase hcap)
      _ = _ := rfl

/-- The retry-loop invariant: entering attempt n with the delay list
holding min(n-1, max_attempts-1) entries, each satisfying B, the loop
returns a result whose delay count equals attempts on TIMEOUT and
attempts - 1 otherwise, with every delay satisfying B. -/
theorem execAux_invariant (cfg : RConfig) (attemptAt : ℕ → Attempt)
    (elapsedAt jitterAt : ℕ → ℚ) (B : ℚ → Prop)
    (hB : ∀ n, 1 ≤ n → B (calcDelay cfg (jitterAt n) n)) :
    ∀ (k n : ℕ) (delays : List ℚ),
      cfg.maxAttempts + 1 - n ≤ k → 1 ≤ n → n ≤ cfg.maxAttempts + 1 →
      delays.length = min (n - 1) (cfg.maxAttempts - 1) →
      (∀ d ∈ delays, B d) →
      ((execAux cfg attemptAt elapsedAt jitterAt n delays).outcome =
          .timeout →
        (execAux cfg attemptAt elapsedAt jitterAt n delays).delays.length =
          (execAux cfg attemptAt elapsedAt jitterAt n delays).attempts) ∧
      ((execAux cfg attemptAt elapsedAt jitterAt n delays).outcome ≠
          .timeout →
        (execAux cfg attemptAt elapsedAt jitterAt n delays).delays.length =
          (execAux cfg attemptAt elapsedAt jitterAt n delays).attempts - 1) ∧
      (∀ d ∈ (execAux cfg attemptAt elapsedAt jitterAt n delays).delays,
        B d) := by
  intro k
  induction k with
  | zero =>
      intro n delays hk hn1 hn2 hlen hBd
      have hn : n = cfg.maxAttempts + 1 := by omega
      rw [min_def] at hlen
      rw [execAux, dif_pos (by omega)]
      refine ⟨by intro h; exact absurd h (by simp), ?_, hBd⟩
      intro _
      simp only
      split at hlen <;> omega
  | succ k ih =>
      intro n delays hk hn1 hn2 hlen hBd
      rw [min_def] at hlen
      by_cases hend : cfg.maxAttempts + 1 ≤ n
      · rw [execAux, dif_pos hend]
        refine ⟨by intro h; exact absurd h (by simp), ?_, hBd⟩
        intro _
        simp only
        split at hlen <;> omega
      · rw [execAux, dif_neg hend]
        simp only
        by_cases hto : (match cfg.totalTimeout with
            | some t => decide (t ≠ 0 ∧ t ≤ elapsedAt n)
            | none => false) = true
        · rw [if_pos hto]
          refine ⟨?_, by intro h; exact absurd rfl h, hBd⟩
          intro _
          simp only
          split at hlen <;> omega
        · rw [if_neg hto]
          have happend : ∀ hlt2 : n < cfg.maxAttempts,
              (delays ++ [calcDelay cfg (jitterAt n) n]).length =
                min ((n + 1) - 1) (cfg.maxAttempts - 1) := by
            intro hlt2
            rw [min_def]
            simp only [List.length_append, List.length_singleton]
            split at hlen <;> split <;> omega
          have hBd2 : ∀ d ∈ delays ++ [calcDelay cfg (jitterAt n) n], B d := by
            intro d hd
            rcases List.mem_append.mp hd with hd1 | hd1
            · exact hBd d hd1
            · simp at hd1
              rw [hd1]
              exact hB n hn1
          cases hatt : attemptAt n with
          | ok resultRetry =>
              dsimp only
              by_cases hrr : resultRetry = true ∧ n < cfg.maxAttempts
              · rw [if_pos hrr]
                exact ih (n + 1) _ (by omega) (by omega) (by omega)
                  (happend hrr.2) hBd2
              · rw [if_neg hrr]
                refine ⟨by intro h; exact absurd h (by simp), ?_, hBd⟩
                intro _
                simp only
                split at hlen <;> omega
          | err retryable =>
              dsimp only
              by_cases hr : retryable = true
              · rw [if_pos hr]
                by_cases hlt : n < cfg.maxAttempts
                · rw [if_pos hlt]
                  exact ih (n + 1) _ (by omega) (by omega) (by omega)
                    (happend hlt) hBd2
                · rw [if_neg hlt]
                  have hlen2 : delays.length =
                      min ((n + 1) - 1) (cfg.maxAttempts - 1) := by
                    rw [min_def]
                    split at hlen <;> split <;> omega
                  exact ih (n + 1) _ (by omega) (by omega) (by omega)
                    hlen2 hBd
              · rw [if_neg hr]
                refine ⟨by intro h; exact absurd h (by simp), ?_, hBd⟩
                intro _
                simp only
                split at hlen <;> omega

end Retry

/-- Claim C5, amended: len(result.delays) equals result.attempts - 1
on SUCCESS, EXHAUSTED and ABORTED but equals result.attempts on
TIMEOUT; and when jitter is enabled with samples inside
[jitter_lo, jitter_hi], 0 < jitter_lo <= jitter_hi,
0 <= base <= max_delay and multiplier >= 1, every recorded delay d
satisfies base <= d / jitter_lo and d / jitter_hi <= max_delay. -/
theorem retry_shape_amended (cfg : Retry.RConfig)
    (attemptAt : ℕ → Retry.Attempt) (elapsedAt jitterAt : ℕ → ℚ) :
    ((Retry.execute cfg attemptAt elapsedAt jitterAt).outcome ≠
        .timeout →
      (Retry.execute cfg attemptAt elapsedAt jitterAt).delays.length =
        (Retry.execute cfg attemptAt elapsedAt jitterAt).attempts - 1) ∧
    ((Retry.execute cfg attemptAt elapsedAt jitterAt).outcome = .timeout →
      (Retry.execute cfg attemptAt elapsedAt jitterAt).delays.length =
        (Retry.execute cfg attemptAt elapsedAt jitterAt).attempts) ∧
    (cfg.jitter = true → 0 < cfg.jitterLo → cfg.jitterLo ≤ cfg.jitterHi →
      0 ≤ cfg.baseDelay → cfg.baseDelay ≤ cfg.maxDelay →
      1 ≤ cfg.multiplier →
      (∀ n, cfg.jitterLo ≤ jitterAt n ∧ jitterAt n ≤ cfg.jitterHi) →
      ∀ d ∈ (Retry.execute cfg attemptAt elapsedAt jitterAt).delays,
        cfg.baseDelay ≤ d / cfg.jitterLo ∧
        d / cfg.jitterHi ≤ cfg.maxDelay) := by
  have hlen0 : ([] : List ℚ).length = min (1 - 1) (cfg.maxAttempts - 1) := by
    simp
  have hshape := Retry.execAux_invariant cfg attemptAt elapsedAt jitterAt
    (fun _ => True) (fun _ _ => trivial) (cfg.maxAttempts + 1) 1 []
    (by omega) (by omega) (by omega) hlen0 (by simp)
  refine ⟨fun h => (hshape.2.1 h), fun h => (hshape.1 h), ?_⟩
  intro hjit hlo hlohi hbase hcap hmul hjits
  have hB := Retry.execAux_invariant cfg attemptAt elapsedAt jitterAt
    (fun d => cfg.baseDelay * cfg.jitterLo ≤ d ∧
      d ≤ cfg.maxDelay * cfg.jitterHi)
    (fun n hn => Retry.calcDelay_bound cfg (jitterAt n) n hjit hlo
      (hjits n).1 (hjits n).2 hbase hcap hmul hn)
    (cfg.maxAttempts + 1) 1 [] (by omega) (by omega) (by omega) hlen0
    (by simp)
  intro d hd
  have hb := hB.2.2 d hd
  have hhi : (0 : ℚ) < cfg.jitterHi := lt_of_lt_of_le hlo hlohi
  constructor
  · rw [le_div_iff₀ hlo]
    exact hb.1
  · rw [div_le_iff₀ hhi]
    exact hb.2

/-- A witness run for the amended claim C5: constant backoff, base 1,
cap 60, jitter range [0.8, 1.2], jitter sample 0.8, two attempts that
always fail retryably: the run is EXHAUSTED with one delay, and that
delay respects the amended jitter bounds. -/
theorem retry_shape_witness :
    (Retry.execute ⟨2, 1, 60, .constant, 2, true, 8/10, 12/10, none⟩
        (fun _ => .err true) (fun _ => 0) (fun _ => 8/10)).delays.length =
      (Retry.execute ⟨2, 1, 60, .constant, 2, true, 8/10, 12/10, none⟩
        (fun _ => .err true) (fun _ => 0) (fun _ => 8/10)).attempts - 1 ∧
    (∀ d ∈ (Retry.execute ⟨2, 1, 60, .constant, 2, true, 8/10, 12/10, none⟩
        (fun _ => .err true) (fun _ => 0) (fun _ => 8/10)).delays,
      (1 : ℚ) ≤ d / (8/10) ∧ d / (12/10) ≤ 60) := by
  have heval : Retry.execute ⟨2, 1, 60, .constant, 2, true, 8/10, 12/10,
      none⟩ (fun _ => .err true) (fun _ => 0) (fun _ => 8/10) =
      ⟨.exhausted, 2, [8/10]⟩ := by
    rw [Retry.execute]
    rw [Retry.execAux]
    norm_num [Retry.calcDelay]
    rw [Retry.execAux]
    norm_num
    rw [Retry.execAux]
    norm_num
  have h := retry_shape_amended
    ⟨2, 1, 60, .constant, 2, true, 8/10, 12/10, none⟩
    (fun _ => .err true) (fun _ => 0) (fun _ => 8/10)
  refine ⟨h.1 (by rw [heval]; simp), ?_⟩
  exact h.2.2 rfl (by norm_num) (by norm_num) (by norm_num) (by norm_num)
    (by norm_num) (fun n => ⟨by norm_num, by norm_num⟩)

namespace Ctx

/-- The FIFO drop always removes exactly one message from a nonempty
list. -/
theorem fifoDropOne_length (msgs : List Msg) (h : 0 < msgs.length) :
    (fifoDropOne msgs).length < msgs.length := by
  unfold fifoDropOne
  cases hidx : msgs.findIdx? (fun m => decide (m.priority < 5)) with
  | none =>
      simp only [List.length_eraseIdx, h, if_true]
      omega
  | some i =>
      have hi : i < msgs.length :=
        (List.findIdx?_eq_some_iff_findIdx_eq.mp hidx).1
      simp only [List.length_eraseIdx, hi, if_true]
      omega

/-- After _truncate_fifo, either the token total is within target or
at most min_messages messages remain. -/
theorem truncateFifo_post (c : Counter) (cfg : CConfig) (sys : Option Msg)
    (summary : Option (List Char)) :
    ∀ (n : ℕ) (msgs : List Msg), msgs.length ≤ n →
      currentTokens c ⟨truncateFifo c cfg sys summary msgs, sys, summary⟩ ≤
          cfg.targetTokens ∨
        (truncateFifo c cfg sys summary msgs).length ≤ cfg.minMessages := by
  intro n
  induction n with
  | zero =>
      intro msgs hlen
      have hnil : msgs = [] := List.length_eq_zero.mp (by omega)
      subst hnil
      rw [truncateFifo, dif_neg (by simp)]
      right
      simp
  | succ n ih =>
      intro msgs hlen
      by_cases hg : cfg.targetTokens < currentTokens c ⟨msgs, sys, summary⟩ ∧
          cfg.minMessages < msgs.length
      · rw [truncateFifo, dif_pos hg]
        exact ih (fifoDropOne msgs)
          (by have := fifoDropOne_length msgs (by omega); omega)
      · rw [truncateFifo, dif_neg hg]
        rcases not_and_or.mp hg with h1 | h1
        · left; omega
        · right; omega

/-- The priority drop removes exactly one message from a nonempty
list. -/
theorem minPriorityIdx_lt_length (msgs : List Msg) (h : 0 < msgs.length) :
    minPriorityIdx msgs < msgs.length := by
  have key : ∀ (l : List Msg) (i : ℕ) (bp : ℤ) (b : ℕ), b < i →
      minPriorityIdx.go l i bp b < i + l.length := by
    intro l
    induction l with
    | nil => intro i bp b hb; simpa [minPriorityIdx.go] using hb
    | cons x xs ih =>
        intro i bp b hb
        unfold minPriorityIdx.go
        by_cases hx : x.priority < bp
        · simp only [if_pos hx]
          have := ih (i + 1) x.priority i (by omega)
          simp only [List.length_cons]
          omega
        · simp only [if_neg hx]
          have := ih (i + 1) bp b (by omega)
          simp only [List.length_cons]
          omega
  cases msgs with
  | nil => simp at h
  | cons m rest =>
      have := key rest 1 m.priority 0 (by omega)
      simp only [minPriorityIdx, List.length_cons]
      omega

/-- After _truncate_priority, either the token total is within target
or at most min_messages messages remain. -/
theorem truncatePriority_post (c : Counter) (cfg : CConfig)
    (sys : Option Msg) (summary : Option (List Char)) :
    ∀ (n : ℕ) (msgs : List Msg), msgs.length ≤ n →
      currentTokens c
          ⟨truncatePriority c cfg sys summary msgs, sys, summary⟩ ≤
          cfg.targetTokens ∨
        (truncatePriority c cfg sys summary msgs).length ≤
          cfg.minMessages := by
  intro n
  induction n with
  | zero =>
      intro msgs hlen
      have hnil : msgs = [] := List.length_eq_zero.mp (by omega)
      subst hnil
      rw [truncatePriority, dif_neg (by simp)]
      right
      simp
  | succ n ih =>
      intro msgs hlen
      by_cases hg : cfg.targetTokens < currentTokens c ⟨msgs, sys, summary⟩ ∧
          cfg.minMessages < msgs.length
      · rw [truncatePriority, dif_pos hg]
        refine ih _ ?_
        have hlt : minPriorityIdx msgs < msgs.length :=
          minPriorityIdx_lt_length msgs (by omega)
        simp only [List.length_eraseIdx, hlt, if_true]
        omega
      · rw [truncatePriority, dif_neg hg]
        rcases not_and_or.mp hg with h1 | h1
        · left; omega
        · right; omega

/-- With at least two messages stored, the LIFO drop removes exactly
one message. -/
theorem lifoDropOne_progress (cfg : CConfig) (msgs : List Msg)
    (h2 : 2 ≤ msgs.length) : (lifoDropOne cfg msgs).length < msgs.length := by
  unfold lifoDropOne
  by_cases hp : cfg.preserveLatestUser = true
  · rw [if_pos hp]
    have key : ∀ (keep : Option ℕ) (k : ℕ), k ≤ msgs.length →
        (∃ i, i < k ∧ some i ≠ keep) →
        (lifoDropOne.go msgs keep k).length < msgs.length := by
      intro keep k
      induction k with
      | zero => intro _ hex; obtain ⟨i, hi, _⟩ := hex; omega
      | succ j ih =>
          intro hk hex
          unfold lifoDropOne.go
          by_cases hne : some j ≠ keep
          · rw [if_pos hne]
            simp only [List.length_eraseIdx, show j < msgs.length from
              by omega, if_true]
            omega
          · rw [if_neg hne]
            refine ih (by omega) ?_
            obtain ⟨i, hi, hine⟩ := hex
            refine ⟨i, ?_, hine⟩
            rcases Nat.lt_succ_iff_lt_or_eq.mp hi with h | h
            · exact h
            · exfalso
              rw [not_not] at hne
              rw [h] at hine
              exact hine hne
    refine key (latestUserIdx msgs) msgs.length (le_refl _) ?_
    cases hku : latestUserIdx msgs with
    | none => exact ⟨msgs.length - 1, by omega, by simp⟩
    | some k0 =>
        by_cases hk0 : k0 = msgs.length - 1
        · refine ⟨msgs.length - 2, by omega, ?_⟩
          intro hcontra
          have := Option.some.inj hcontra
          omega
        · refine ⟨msgs.length - 1, by omega, ?_⟩
          intro hcontra
          exact hk0 (Option.some.inj hcontra).symm
  · rw [if_neg hp]
    simp only [List.length_dropLast]
    omega

/-- After _truncate_lifo with min_messages at least 1, either the
token total is within target or at most min_messages messages
remain. -/
theorem truncateLifo_post (c : Counter) (cfg : CConfig) (sys : Option Msg)
    (summary : Option (List Char)) (hmin : 1 ≤ cfg.minMessages) :
    ∀ (n : ℕ) (msgs : List Msg), msgs.length ≤ n →
      currentTokens c ⟨truncateLifo c cfg sys summary msgs, sys, summary⟩ ≤
          cfg.targetTokens ∨
        (truncateLifo c cfg sys summary msgs).length ≤ cfg.minMessages := by
  intro n
  induction n with
  | zero =>
      intro msgs hlen
      have hnil : msgs = [] := List.length_eq_zero.mp (by omega)
      subst hnil
      rw [truncateLifo, dif_neg (by simp)]
      right
      simp
  | succ n ih =>
      intro msgs hlen
      by_cases hg : cfg.targetTokens < currentTokens c ⟨msgs, sys, summary⟩ ∧
          cfg.minMessages < msgs.length
      · rw [truncateLifo, dif_pos hg]
        have hprog : (lifoDropOne cfg msgs).length < msgs.length :=
          lifoDropOne_progress cfg msgs (by omega)
        simp only [dif_pos hprog]
        exact ih _ (by omega)
      · rw [truncateLifo, dif_neg hg]
        rcases not_and_or.mp hg with h1 | h1
        · left; omega
        · right; omega

/-- The sliding-window truncation leaves at most
sliding_window_size messages. -/
theorem truncateSliding_length (cfg : CConfig) (msgs : List Msg)
    (hw : cfg.slidingWindowSize ≠ 0) :
    (truncateSliding cfg msgs).length ≤ cfg.slidingWindowSize := by
  unfold truncateSliding
  by_cases h : cfg.slidingWindowSize < msgs.length
  · rw [if_pos h, if_neg hw]
    simp only [List.length_drop]
    omega
  · rw [if_neg h]
    omega

/-- The Python [-0:] slice quirk: a sliding window of size 0 keeps
every message. -/
theorem truncateSliding_zero (cfg : CConfig) (msgs : List Msg)
    (hw : cfg.slidingWindowSize = 0) :
    truncateSliding cfg msgs = msgs := by
  unfold truncateSliding
  by_cases h : cfg.slidingWindowSize < msgs.length
  · rw [if_pos h, if_pos hw]
  · rw [if_neg h]

/-- No truncation strategy ever touches the stored system message. -/
theorem truncate_systemMsg (c : Counter) (s : Option Summarizer)
    (cfg : CConfig) (st : CtxState) :
    (truncate c s cfg st).systemMsg = st.systemMsg := by
  unfold truncate
  cases cfg.strategy <;> rfl

end Ctx

/-- Claim C4, counterexample.  A manager with target 3 tokens under
the default SLIDING_WINDOW strategy (window 50, min_messages 4) and
preserve_system cleared: six appends of a 4-character user message
leave six messages and 34 tokens, so neither current_tokens <=
target_tokens nor count <= min_messages holds after the append; and
the system message is still retained even though preserve_system is
false. -/
theorem context_invariant_counterexample :
    (Ctx.addMessages Ctx.approxCounter none
        ⟨3, .slidingWindow, 50, 4, false, true⟩
        ⟨[], some ⟨.system, "s".data, none, 10, none⟩, none⟩
        (List.replicate 6 ⟨.user, "aaaa".data, none, 0, none⟩)).msgs.length
      = 6 ∧
    4 < 6 ∧
    Ctx.currentTokens Ctx.approxCounter
        (Ctx.addMessages Ctx.approxCounter none
          ⟨3, .slidingWindow, 50, 4, false, true⟩
          ⟨[], some ⟨.system, "s".data, none, 10, none⟩, none⟩
          (List.replicate 6 ⟨.user, "aaaa".data, none, 0, none⟩)) = 34 ∧
    (3 : ℤ) < 34 ∧
    (Ctx.addMessages Ctx.approxCounter none
        ⟨3, .slidingWindow, 50, 4, false, true⟩
        ⟨[], some ⟨.system, "s".data, none, 10, none⟩, none⟩
        (List.replicate 6 ⟨.user, "aaaa".data, none, 0, none⟩)).systemMsg
      = some ⟨.system, "s".data, none, 10, none⟩ := by
  refine ⟨?_, by norm_num, ?_, by norm_num, ?_⟩ <;> rfl

/-- Claim C4, amended: after every append, under SLIDING_WINDOW with
a window size of at least 1 either current_tokens <= target_tokens
or the retained conversation length is at most sliding_window_size
(not min_messages), while a window size of 0 retains every message
(the Python [-0:] slice keeps the whole list); under FIFO, PRIORITY,
LIFO (the latter when min_messages >= 1) and SUMMARIZE with a
summarizer, either current_tokens <= target_tokens or the retained
length is at most min_messages; and the stored system message is
never dropped, whatever preserve_system says. -/
theorem context_invariant_amended (c : Ctx.Counter)
    (s : Option Ctx.Summarizer) (cfg : Ctx.CConfig) (st : Ctx.CtxState)
    (m : Ctx.Msg) :
    (cfg.strategy = .slidingWindow ∧ 1 ≤ cfg.slidingWindowSize →
      Ctx.currentTokens c (Ctx.addMessage c s cfg st m).2 ≤
          cfg.targetTokens ∨
        (Ctx.addMessage c s cfg st m).2.msgs.length ≤
          cfg.slidingWindowSize) ∧
    (cfg.strategy = .slidingWindow ∧ cfg.slidingWindowSize = 0 →
      (Ctx.addMessage c s cfg st m).2.msgs.length =
        st.msgs.length + 1) ∧
    (cfg.strategy = .fifo ∨ cfg.strategy = .priority ∨
        (cfg.strategy = .lifo ∧ 1 ≤ cfg.minMessages) ∨
        (cfg.strategy = .summarize ∧ s.isSome) →
      Ctx.currentTokens c (Ctx.addMessage c s cfg st m).2 ≤
          cfg.targetTokens ∨
        (Ctx.addMessage c s cfg st m).2.msgs.length ≤ cfg.minMessages) ∧
    (Ctx.addMessage c s cfg st m).2.systemMsg = st.systemMsg := by
  unfold Ctx.addMessage
  set m2 : Ctx.Msg := { m with tokenCount := some (c.count m.content) }
  set st2 : Ctx.CtxState := { st with msgs := st.msgs ++ [m2] } with hst2
  by_cases hover : cfg.targetTokens < Ctx.currentTokens c st2
  · rw [if_pos hover]
    simp only
    refine ⟨?_, ?_, ?_, Ctx.truncate_systemMsg c s cfg st2⟩
    · rintro ⟨hstrat, hw⟩
      right
      unfold Ctx.truncate
      rw [hstrat]
      simp only
      exact Ctx.truncateSliding_length cfg st2.msgs (by omega)
    · rintro ⟨hstrat, hw⟩
      unfold Ctx.truncate
      rw [hstrat]
      simp only
      rw [Ctx.truncateSliding_zero cfg st2.msgs hw]
      simp [hst2]
    · intro hstrat
      rcases hstrat with h | h | ⟨h, hm⟩ | ⟨h, hs⟩
      · unfold Ctx.truncate
        rw [h]
        simp only
        have := Ctx.truncateFifo_post c cfg st2.systemMsg st2.summary
          st2.msgs.length st2.msgs (le_refl _)
        rcases this with h1 | h1
        · left
          unfold Ctx.currentTokens Ctx.getAllMessages at h1 ⊢
          exact h1
        · right
          exact h1
      · unfold Ctx.truncate
        rw [h]
        simp only
        have := Ctx.truncatePriority_post c cfg st2.systemMsg st2.summary
          st2.msgs.length st2.msgs (le_refl _)
        rcases this with h1 | h1
        · left
          unfold Ctx.currentTokens Ctx.getAllMessages at h1 ⊢
          exact h1
        · right
          exact h1
      · unfold Ctx.truncate
        rw [h]
        simp only
        have := Ctx.truncateLifo_post c cfg st2.systemMsg st2.summary hm
          st2.msgs.length st2.msgs (le_refl _)
        rcases this with h1 | h1
        · left
          unfold Ctx.currentTokens Ctx.getAllMessages at h1 ⊢
          exact h1
        · right
          exact h1
      · obtain ⟨f, hf⟩ := Option.isSome_iff_exists.mp hs
        subst hf
        unfold Ctx.truncate
        rw [h]
        simp only
        right
        unfold Ctx.truncateSummarize
        dsimp only
        by_cases hlen : cfg.minMessages < (st.msgs ++ [m2]).length
        · rw [if_pos hlen]
          cases hfr : f (List.take ((st.msgs ++ [m2]).length - cfg.minMessages)
              (st.msgs ++ [m2])) with
          | ok sres =>
              dsimp only
              simp only [List.length_drop]
              omega
          | error e =>
              dsimp only
              simp only [List.length_drop]
              omega
        · rw [if_neg hlen]
          simp only
          omega
  · rw [if_neg hover]
    refine ⟨fun _ => Or.inl ?_, fun _ => ?_, fun _ => Or.inl ?_, rfl⟩
    · dsimp only
      rw [← hst2]
      omega
    · dsimp only
      simp
    · dsimp only
      rw [← hst2]
      omega

/-- A witness for the amended claim C4: the counterexample
configuration (with preserve_system restored to its default) indeed
keeps the conversation within the sliding window size; a window size
of 0 retains all messages across an over-budget append; and the
system message survives an append under a manager with
preserve_system set to false. -/
theorem context_invariant_witness :
    (Ctx.currentTokens Ctx.approxCounter
        (Ctx.addMessage Ctx.approxCounter none
          ⟨3, .slidingWindow, 50, 4, true, true⟩
          ⟨[], some ⟨.system, "s".data, none, 10, none⟩, none⟩
          ⟨.user, "aaaa".data, none, 0, none⟩).2 ≤ 3 ∨
      (Ctx.addMessage Ctx.approxCounter none
          ⟨3, .slidingWindow, 50, 4, true, true⟩
          ⟨[], some ⟨.system, "s".data, none, 10, none⟩, none⟩
          ⟨.user, "aaaa".data, none, 0, none⟩).2.msgs.length ≤ 50) ∧
    (Ctx.addMessage Ctx.approxCounter none
        ⟨3, .slidingWindow, 0, 4, true, true⟩
        ⟨List.replicate 2 ⟨.user, "aaaa".data, none, 0, none⟩,
          none, none⟩
        ⟨.user, "aaaa".data, none, 0, none⟩).2.msgs.length = 3 ∧
    (Ctx.addMessage Ctx.approxCounter none
        ⟨3, .slidingWindow, 50, 4, false, true⟩
        ⟨[], some ⟨.system, "s".data, none, 10, none⟩, none⟩
        ⟨.user, "aaaa".data, none, 0, none⟩).2.systemMsg =
      some ⟨.system, "s".data, none, 10, none⟩ :=
  ⟨(context_invariant_amended Ctx.approxCounter none
      ⟨3, .slidingWindow, 50, 4, true, true⟩
      ⟨[], some ⟨.system, "s".data, none, 10, none⟩, none⟩
      ⟨.user, "aaaa".data, none, 0, none⟩).1 ⟨rfl, by norm_num⟩,
    (context_invariant_amended Ctx.approxCounter none
      ⟨3, .slidingWindow, 0, 4, true, true⟩
      ⟨List.replicate 2 ⟨.user, "aaaa".data, none, 0, none⟩,
        none, none⟩
      ⟨.user, "aaaa".data, none, 0, none⟩).2.1 ⟨rfl, rfl⟩,
    (context_invariant_amended Ctx.approxCounter none
      ⟨3, .slidingWindow, 50, 4, false, true⟩
      ⟨[], some ⟨.system, "s".data, none, 10, none⟩, none⟩
      ⟨.user, "aaaa".data, none, 0, none⟩).2.2.2⟩

/-- Claim C6, counterexample.  min_messages 4, sliding window size 2,
six stored messages, a summarizer that raises: the code keeps the
last four messages and stores no summary, while the claimed
sliding-window fallback would keep only the last two. -/
theorem summarize_fallback_counterexample :
    (Ctx.truncateSummarize (some (fun _ => .error ()))
        ⟨3, .summarize, 2, 4, true, true⟩ none
        (List.replicate 6 ⟨.user, "aaaa".data, none, 0, none⟩)).1.length
      = 4 ∧
    (Ctx.truncateSummarize (some (fun _ => .error ()))
        ⟨3, .summarize, 2, 4, true, true⟩ none
        (List.replicate 6 ⟨.user, "aaaa".data, none, 0, none⟩)).2 = none ∧
    (Ctx.truncateSliding ⟨3, .summarize, 2, 4, true, true⟩
        (List.replicate 6 ⟨.user, "aaaa".data, none, 0, none⟩)).length
      = 2 ∧
    (Ctx.truncateSummarize (some (fun _ => .error ()))
          ⟨3, .summarize, 2, 4, true, true⟩ none
          (List.replicate 6 ⟨.user, "aaaa".data, none, 0, none⟩)).1 ≠
      Ctx.truncateSliding ⟨3, .summarize, 2, 4, true, true⟩
        (List.replicate 6 ⟨.user, "aaaa".data, none, 0, none⟩) := by
  have e1 : (Ctx.truncateSummarize (some (fun _ => .error ()))
      ⟨3, .summarize, 2, 4, true, true⟩ none
      (List.replicate 6 ⟨.user, "aaaa".data, none, 0, none⟩)).1.length
    = 4 := rfl
  have e2 : (Ctx.truncateSliding ⟨3, .summarize, 2, 4, true, true⟩
      (List.replicate 6 ⟨.user, "aaaa".data, none, 0, none⟩)).length
    = 2 := rfl
  refine ⟨e1, rfl, e2, ?_⟩
  intro h
  rw [congrArg List.length h, e2] at e1
  exact absurd e1 (by norm_num)

/-- Claim C6, amended: with no summarizer the summarize truncation is
exactly the sliding-window truncation; with a summarizer and more
than min_messages stored messages it always keeps exactly the last
min_messages, stores the summarizer output as the summary on
success, and on failure keeps the previous summary (the prefix is
dropped either way; there is no sliding-window fallback on failure);
a stored summary surfaces in the message list as a synthetic pinned
system message whose content starts with the fixed summary
banner. -/
theorem summarize_truncation_amended (f : Ctx.Summarizer)
    (cfg : Ctx.CConfig) (summary : Option (List Char)) (msgs : List Ctx.Msg)
    (hfires : cfg.minMessages < msgs.length) :
    (∀ summary2 msgs2,
      Ctx.truncateSummarize none cfg summary2 msgs2 =
        (Ctx.truncateSliding cfg msgs2, summary2)) ∧
    (Ctx.truncateSummarize (some f) cfg summary msgs).1 =
      msgs.drop (msgs.length - cfg.minMessages) ∧
    (Ctx.truncateSummarize (some f) cfg summary msgs).1.length =
      cfg.minMessages ∧
    (Ctx.truncateSummarize (some f) cfg summary msgs).2 =
      (match f (msgs.take (msgs.length - cfg.minMessages)) with
       | .ok s => some s
       | .error _ => summary) ∧
    (∀ s : List Char,
      (Ctx.summaryMsg s).role = .system ∧ (Ctx.summaryMsg s).priority = 5 ∧
      (∃ rest, (Ctx.summaryMsg s).content =
        ("Previous conversation summary:".data) ++ rest) ∧
      ∀ st : Ctx.CtxState, st.summary = some s →
        Ctx.summaryMsg s ∈ Ctx.getAllMessages st) := by
  refine ⟨fun summary2 msgs2 => rfl, ?_, ?_, ?_, ?_⟩
  · unfold Ctx.truncateSummarize
    dsimp only
    rw [if_pos hfires]
    cases f (msgs.take (msgs.length - cfg.minMessages)) <;> rfl
  · unfold Ctx.truncateSummarize
    dsimp only
    rw [if_pos hfires]
    cases f (msgs.take (msgs.length - cfg.minMessages)) <;>
      (dsimp only; simp only [List.length_drop]; omega)
  · unfold Ctx.truncateSummarize
    dsimp only
    rw [if_pos hfires]
    cases f (msgs.take (msgs.length - cfg.minMessages)) <;> rfl
  · intro s
    refine ⟨rfl, rfl, ⟨("\n".data) ++ s, ?_⟩, ?_⟩
    · show ("Previous conversation summary:\n".data) ++ s = _
      rw [← List.append_assoc]
      rfl
    · intro st hsum
      unfold Ctx.getAllMessages
      rw [hsum]
      simp

/-- A witness for the amended claim C6: six messages, min_messages 4,
a successful summarizer: the last four are kept and the summary is
stored. -/
theorem summarize_truncation_witness :
    (Ctx.truncateSummarize (some (fun _ => .ok ("x".data)))
        ⟨3, .summarize, 2, 4, true, true⟩ none
        (List.replicate 6 ⟨.user, "aaaa".data, none, 0, none⟩)).1.length
      = 4 ∧
    (Ctx.truncateSummarize (some (fun _ => .ok ("x".data)))
        ⟨3, .summarize, 2, 4, true, true⟩ none
        (List.replicate 6 ⟨.user, "aaaa".data, none, 0, none⟩)).2 =
      some ("x".data) := by
  have h := summarize_truncation_amended (fun _ => .ok ("x".data))
    ⟨3, .summarize, 2, 4, true, true⟩ none
    (List.replicate 6 ⟨.user, "aaaa".data, none, 0, none⟩)
    (by simp)
  exact ⟨h.2.2.1, h.2.2.2.1⟩

namespace Validator

/-- Tag stripping never lengthens the text. -/
theorem stripTags_length_le (s : List Char) :
    (stripTags s).length ≤ s.length := by
  suffices h : ∀ (n : ℕ) (s : List Char), s.length ≤ n →
      (stripTags s).length ≤ s.length from h s.length s (le_refl _)
  intro n
  induction n with
  | zero =>
      intro s hl
      have hnil : s = [] := List.length_eq_zero.mp (by omega)
      subst hnil
      simp [stripTags]
  | succ n ih =>
    intro s hl
    cases s with
    | nil => simp [stripTags]
    | cons c rest =>
        by_cases hc : c = '<'
        · rw [stripTags, if_pos hc]
          cases hfind : findDelim '>' rest with
          | some after =>
              have hlt := findDelim_sublen hfind
              have := ih after (by simp at hl; omega)
              simp only [List.length_cons]
              omega
          | none =>
              have := ih rest (by simp at hl; omega)
              simp only [List.length_cons]
              omega
        · rw [stripTags, if_neg hc]
          have := ih rest (by simp at hl; omega)
          simp only [List.length_cons]
          omega

/-- Entity decoding never lengthens the text. -/
theorem htmlUnescape_length_le (s : List Char) :
    (htmlUnescape s).length ≤ s.length := by
  suffices h : ∀ (n : ℕ) (s : List Char), s.length ≤ n →
      (htmlUnescape s).length ≤ s.length from h s.length s (le_refl _)
  intro n
  induction n with
  | zero =>
      intro s hl
      have hnil : s = [] := List.length_eq_zero.mp (by omega)
      subst hnil
      simp [htmlUnescape]
  | succ n ih =>
    intro s hl
    cases s with
    | nil => simp [htmlUnescape]
    | cons c rest =>
        by_cases hc : c = '&'
        · rw [htmlUnescape, if_pos hc]
          cases hent : matchEntity rest with
          | some pr =>
              have hsome : matchEntity rest = some (pr.1, pr.2) := by
                rw [hent]
              have hle := matchEntity_sublen hsome
              have := ih pr.2 (by simp at hl; omega)
              simp only [List.length_cons]
              omega
          | none =>
              have := ih rest (by simp at hl; omega)
              simp only [List.length_cons]
              omega
        · rw [htmlUnescape, if_neg hc]
          have := ih rest (by simp at hl; omega)
          simp only [List.length_cons]
          omega

/-- Space collapsing never lengthens the text. -/
theorem collapseSpaces_length_le (s : List Char) :
    (collapseSpaces s).length ≤ s.length := by
  suffices h : ∀ (n : ℕ) (s : List Char), s.length ≤ n →
      (collapseSpaces s).length ≤ s.length from h s.length s (le_refl _)
  intro n
  induction n with
  | zero =>
      intro s hl
      have hnil : s = [] := List.length_eq_zero.mp (by omega)
      subst hnil
      simp [collapseSpaces]
  | succ n ih =>
    intro s hl
    cases s with
    | nil => simp [collapseSpaces]
    | cons c rest =>
        by_cases hc : c = ' '
        · rw [collapseSpaces, if_pos hc]
          have hdw : (rest.dropWhile (fun x => x = ' ')).length ≤
              rest.length := (List.dropWhile_suffix _).length_le
          have := ih (rest.dropWhile (fun x => x = ' '))
            (by simp at hl; omega)
          simp only [List.length_cons]
          omega
        · rw [collapseSpaces, if_neg hc]
          have := ih rest (by simp at hl; omega)
          simp only [List.length_cons]
          omega

/-- Newline collapsing never lengthens the text. -/
theorem collapseNewlines_length_le (s : List Char) :
    (collapseNewlines s).length ≤ s.length := by
  suffices h : ∀ (n : ℕ) (s : List Char), s.length ≤ n →
      (collapseNewlines s).length ≤ s.length from h s.length s (le_refl _)
  intro n
  induction n with
  | zero =>
      intro s hl
      have hnil : s = [] := List.length_eq_zero.mp (by omega)
      subst hnil
      simp [collapseNewlines]
  | succ n ih =>
    intro s hl
    cases s with
    | nil => simp [collapseNewlines]
    | cons c rest =>
        by_cases hc : c = '\n'
        · rw [collapseNewlines, if_pos hc]
          have hsplit : (rest.takeWhile (fun x => x = '\n')).length +
              (rest.dropWhile (fun x => x = '\n')).length = rest.length := by
            rw [← List.length_append, List.takeWhile_append_dropWhile]
          have hdw : (rest.dropWhile (fun x => x = '\n')).length ≤
              rest.length := (List.dropWhile_suffix _).length_le
          have hrec := ih (rest.dropWhile (fun x => x = '\n'))
            (by simp at hl; omega)
          by_cases hrun : 2 ≤ (rest.takeWhile (fun x => x = '\n')).length
          · rw [if_pos hrun]
            simp only [List.length_append, List.length_cons]
            simp only [List.length_cons, List.length_nil]
            omega
          · rw [if_neg hrun]
            simp only [List.length_append, List.length_cons]
            omega
        · rw [collapseNewlines, if_neg hc]
          have := ih rest (by simp at hl; omega)
          simp only [List.length_cons]
          omega

/-- Stripping never lengthens the text. -/
theorem pyStrip_length_le (s : List Char) :
    (pyStrip s).length ≤ s.length := by
  unfold pyStrip
  have h1 : (s.dropWhile isWsChar).length ≤ s.length :=
    (List.dropWhile_suffix _).length_le
  have h2 : ((s.dropWhile isWsChar).reverse.dropWhile isWsChar).length ≤
      (s.dropWhile isWsChar).reverse.length :=
    (List.dropWhile_suffix _).length_le
  simp only [List.length_reverse] at h2 ⊢
  omega

/-- Whitespace normalization never lengthens the text. -/
theorem normalizeWhitespace_length_le (s : List Char) :
    (normalizeWhitespace s).length ≤ s.length := by
  unfold normalizeWhitespace
  have h1 := collapseSpaces_length_le s
  have h2 := collapseNewlines_length_le (collapseSpaces s)
  have h3 := pyStrip_length_le (collapseNewlines (collapseSpaces s))
  omega

/-- Tag stripping is the identity on text without an opening
angle bracket. -/
theorem stripTags_eq_self {s : List Char} (h : '<' ∉ s) :
    stripTags s = s := by
  induction s with
  | nil => simp [stripTags]
  | cons c rest ih =>
      have hc : ¬ c = '<' := fun hcc => h (by simp [hcc])
      rw [stripTags, if_neg hc, ih (fun hm => h (by simp [hm]))]

/-- Entity decoding is the identity on text without an ampersand. -/
theorem htmlUnescape_eq_self {s : List Char} (h : '&' ∉ s) :
    htmlUnescape s = s := by
  induction s with
  | nil => simp [htmlUnescape]
  | cons c rest ih =>
      have hc : ¬ c = '&' := fun hcc => h (by simp [hcc])
      rw [htmlUnescape, if_neg hc, ih (fun hm => h (by simp [hm]))]

end Validator

namespace Validator

theorem collapseSpaces_head? (s : List Char) :
    (collapseSpaces s).head? = s.head? := by
  cases s with
  | nil => simp [collapseSpaces]
  | cons c rest =>
      by_cases hc : c = ' '
      · rw [collapseSpaces, if_pos hc, hc]
        rfl
      · rw [collapseSpaces, if_neg hc]
        rfl

theorem collapseNewlines_head? (s : List Char) :
    (collapseNewlines s).head? = s.head? := by
  cases s with
  | nil => simp [collapseNewlines]
  | cons c rest =>
      by_cases hc : c = '\n'
      · rw [collapseNewlines, if_pos hc, hc]
        by_cases hrun : 2 ≤ (rest.takeWhile (fun x => x = '\n')).length
        · rw [if_pos hrun]
          rfl
        · rw [if_neg hrun]
          rfl
      · rw [collapseNewlines, if_neg hc]
        rfl

theorem head?_dropWhile {p : Char → Bool} :
    ∀ (s : List Char) (c : Char), (s.dropWhile p).head? = some c →
      p c = false := by
  intro s
  induction s with
  | nil => intro c h; simp at h
  | cons a l ih =>
      intro c h
      by_cases ha : p a
      · rw [List.dropWhile_cons_of_pos ha] at h
        exact ih c h
      · rw [List.dropWhile_cons_of_neg ha] at h
        simp at h
        rw [← h]
        simpa using ha

theorem dropWhile_eq_self_of_head {p : Char → Bool} {s : List Char}
    (h : ∀ c, s.head? = some c → p c = false) : s.dropWhile p = s := by
  cases s with
  | nil => rfl
  | cons a l => rw [List.dropWhile_cons_of_neg (by simp [h a rfl])]

/-- Unfolding step: no-double-space of a cons. -/
theorem noDoubleSpace_cons (a : Char) (l : List Char) :
    noDoubleSpace (a :: l) =
      ((match l.head? with
        | some b => !(a = ' ' && b = ' ')
        | none => true) && noDoubleSpace l) := by
  cases l <;> simp [noDoubleSpace]

theorem noDoubleSpace_tail {a : Char} {l : List Char}
    (h : noDoubleSpace (a :: l) = true) : noDoubleSpace l = true := by
  rw [noDoubleSpace_cons, Bool.and_eq_true] at h
  exact h.2

theorem noDoubleSpace_append_right :
    ∀ (t l : List Char), noDoubleSpace (t ++ l) = true →
      noDoubleSpace l = true := by
  intro t
  induction t with
  | nil => intro l h; exact h
  | cons a t' ih => intro l h; exact ih l (noDoubleSpace_tail h)

theorem noDoubleSpace_append_left :
    ∀ (l u : List Char), noDoubleSpace (l ++ u) = true →
      noDoubleSpace l = true := by
  intro l
  induction l with
  | nil => intro u _; rfl
  | cons a l' ih =>
      intro u h
      rw [List.cons_append, noDoubleSpace_cons, Bool.and_eq_true] at h
      obtain ⟨h1, h2⟩ := h
      rw [noDoubleSpace_cons, Bool.and_eq_true]
      refine ⟨?_, ih u h2⟩
      cases hl : l' with
      | nil => rfl
      | cons b r =>
          have : (l' ++ u).head? = some b := by rw [hl]; rfl
          rw [this] at h1
          rw [hl] at *
          simpa using h1

theorem noDoubleSpace_collapseSpaces (s : List Char) :
    noDoubleSpace (collapseSpaces s) = true := by
  suffices h : ∀ (n : ℕ) (s : List Char), s.length ≤ n →
      noDoubleSpace (collapseSpaces s) = true from
    h s.length s (le_refl _)
  intro n
  induction n with
  | zero =>
      intro s hl
      have hnil : s = [] := List.length_eq_zero.mp (by omega)
      subst hnil
      simp [collapseSpaces, noDoubleSpace]
  | succ n ih =>
      intro s hl
      cases s with
      | nil => simp [collapseSpaces, noDoubleSpace]
      | cons c rest =>
          by_cases hc : c = ' '
          · rw [collapseSpaces, if_pos hc]
            have hdw : (rest.dropWhile (fun x => x = ' ')).length ≤
                rest.length := (List.dropWhile_suffix _).length_le
            have hrec := ih (rest.dropWhile (fun x => x = ' '))
              (by simp at hl; omega)
            rw [noDoubleSpace_cons, Bool.and_eq_true]
            refine ⟨?_, hrec⟩
            rw [collapseSpaces_head?]
            cases hh : (rest.dropWhile (fun x => x = ' ')).head? with
            | none => rfl
            | some b =>
                have := head?_dropWhile rest b hh
                simp at this ⊢
                intro hb
                exact this hb
          · rw [collapseSpaces, if_neg hc]
            have hrec := ih rest (by simp at hl; omega)
            rw [noDoubleSpace_cons, Bool.and_eq_true]
            refine ⟨?_, hrec⟩
            rw [collapseSpaces_head?]
            cases rest.head? with
            | none => rfl
            | some b => simp [hc]

theorem noDoubleSpace_collapseSpaces_eq (s : List Char)
    (h : noDoubleSpace s = true) : collapseSpaces s = s := by
  suffices hgen : ∀ (n : ℕ) (s : List Char), s.length ≤ n →
      noDoubleSpace s = true → collapseSpaces s = s from
    hgen s.length s (le_refl _) h
  intro n
  induction n with
  | zero =>
      intro s hl _
      have hnil : s = [] := List.length_eq_zero.mp (by omega)
      subst hnil
      simp [collapseSpaces]
  | succ n ih =>
      intro s hl hnds
      cases s with
      | nil => simp [collapseSpaces]
      | cons c rest =>
          by_cases hc : c = ' '
          · rw [collapseSpaces, if_pos hc]
            have hhead : ∀ b, rest.head? = some b →
                (fun x => decide (x = ' ')) b = false := by
              intro b hb
              rw [noDoubleSpace_cons, hb, Bool.and_eq_true] at hnds
              obtain ⟨h1, _⟩ := hnds
              simp [hc] at h1
              simp [h1]
            have hdw : rest.dropWhile (fun x => x = ' ') = rest :=
              dropWhile_eq_self_of_head hhead
            rw [hdw, ih rest (by simp at hl; omega)
              (noDoubleSpace_tail hnds), hc]
          · rw [collapseSpaces, if_neg hc,
              ih rest (by simp at hl; omega) (noDoubleSpace_tail hnds)]

end Validator
namespace Validator

/-- Unfolding step: no-triple-newline of a cons. -/
theorem noTripleNl_cons (a : Char) (l : List Char) :
    noTripleNl (a :: l) =
      ((match l with
        | b :: c :: _ => !(a = '\n' && b = '\n' && c = '\n')
        | _ => true) && noTripleNl l) := by
  cases l with
  | nil => rfl
  | cons b m =>
      cases m with
      | nil => rfl
      | cons c r => simp [noTripleNl]

theorem noTripleNl_tail {a : Char} {l : List Char}
    (h : noTripleNl (a :: l) = true) : noTripleNl l = true := by
  rw [noTripleNl_cons, Bool.and_eq_true] at h
  exact h.2

theorem noTripleNl_append_right :
    ∀ (t l : List Char), noTripleNl (t ++ l) = true →
      noTripleNl l = true := by
  intro t
  induction t with
  | nil => intro l h; exact h
  | cons a t2 ih => intro l h; exact ih l (noTripleNl_tail h)

theorem noTripleNl_append_left :
    ∀ (l u : List Char), noTripleNl (l ++ u) = true →
      noTripleNl l = true := by
  intro l
  induction l with
  | nil => intro u _; rfl
  | cons a l2 ih =>
      intro u h
      rw [List.cons_append, noTripleNl_cons, Bool.and_eq_true] at h
      obtain ⟨h1, h2⟩ := h
      rw [noTripleNl_cons, Bool.and_eq_true]
      refine ⟨?_, ih u h2⟩
      rcases l2 with _ | ⟨b, _ | ⟨c, r⟩⟩
      · rfl
      · rfl
      · simpa using h1

theorem noTripleNl_cons_nonNl {c : Char} {l : List Char}
    (hc : c ≠ '\n') (h : noTripleNl l = true) :
    noTripleNl (c :: l) = true := by
  rw [noTripleNl_cons, Bool.and_eq_true]
  refine ⟨?_, h⟩
  rcases l with _ | ⟨b, _ | ⟨d, r⟩⟩
  · rfl
  · rfl
  · simp [hc]

theorem noTripleNl_one_nl {l : List Char}
    (hhead : ∀ d, l.head? = some d → d ≠ '\n')
    (h : noTripleNl l = true) : noTripleNl ('\n' :: l) = true := by
  rw [noTripleNl_cons, Bool.and_eq_true]
  refine ⟨?_, h⟩
  rcases l with _ | ⟨b, _ | ⟨d, r⟩⟩
  · rfl
  · rfl
  · have hb : b ≠ '\n' := hhead b rfl
    simp [hb]

theorem noTripleNl_two_nl {l : List Char}
    (hhead : ∀ d, l.head? = some d → d ≠ '\n')
    (h : noTripleNl l = true) :
    noTripleNl ('\n' :: '\n' :: l) = true := by
  rw [noTripleNl_cons, Bool.and_eq_true]
  refine ⟨?_, noTripleNl_one_nl hhead h⟩
  rcases l with _ | ⟨b, r⟩
  · rfl
  · have hb : b ≠ '\n' := hhead b rfl
    simp [hb]

/-- Prepending a block of newlines cannot create a double space. -/
theorem noDoubleSpace_nlBlock_append (block l : List Char)
    (hb : ∀ x ∈ block, x = '\n') (h : noDoubleSpace l = true) :
    noDoubleSpace (block ++ l) = true := by
  induction block with
  | nil => exact h
  | cons b bs ih =>
      have hbnl : b = '\n' := hb b (by simp)
      have hbs : ∀ x ∈ bs, x = '\n' := fun x hx => hb x (by simp [hx])
      rw [List.cons_append, noDoubleSpace_cons, Bool.and_eq_true]
      refine ⟨?_, ih hbs⟩
      cases hh : (bs ++ l).head? with
      | none => rfl
      | some y => simp [hbnl]

/-- Collapsing newline runs preserves the no-double-space normal
form. -/
theorem noDoubleSpace_collapseNewlines (s : List Char)
    (h : noDoubleSpace s = true) :
    noDoubleSpace (collapseNewlines s) = true := by
  suffices hgen : ∀ (n : ℕ) (s : List Char), s.length ≤ n →
      noDoubleSpace s = true →
      noDoubleSpace (collapseNewlines s) = true from
    hgen s.length s (le_refl _) h
  intro n
  induction n with
  | zero =>
      intro s hl _
      have hnil : s = [] := List.length_eq_zero.mp (by omega)
      subst hnil
      simp [collapseNewlines, noDoubleSpace]
  | succ n ih =>
      intro s hl hnds
      cases s with
      | nil => simp [collapseNewlines, noDoubleSpace]
      | cons c rest =>
          by_cases hc : c = '\n'
          · rw [collapseNewlines, if_pos hc]
            have hdwlen : (rest.dropWhile (fun x => x = '\n')).length ≤
                rest.length := (List.dropWhile_suffix _).length_le
            have hndsdw : noDoubleSpace
                (rest.dropWhile (fun x => x = '\n')) = true := by
              have hsuf : rest.dropWhile (fun x => x = '\n') <:+ rest :=
                List.dropWhile_suffix _
              obtain ⟨t, ht⟩ := hsuf
              exact noDoubleSpace_append_right t _
                (by rw [ht]; exact noDoubleSpace_tail hnds)
            have hrec := ih (rest.dropWhile (fun x => x = '\n'))
              (by simp at hl; omega) hndsdw
            refine noDoubleSpace_nlBlock_append _ _ ?_ hrec
            intro x hx
            by_cases hrun :
                2 ≤ (rest.takeWhile (fun x => x = '\n')).length
            · rw [if_pos hrun] at hx
              rcases List.mem_cons.mp hx with h1 | h1
              · exact h1
              · rcases List.mem_cons.mp h1 with h2 | h2
                · exact h2
                · exact absurd h2 (List.not_mem_nil x)
            · rw [if_neg hrun] at hx
              rcases List.mem_cons.mp hx with h1 | h1
              · exact h1
              · have hm := List.mem_takeWhile_imp h1
                simpa using hm
          · rw [collapseNewlines, if_neg hc]
            have hrec := ih rest (by simp at hl; omega)
              (noDoubleSpace_tail hnds)
            rw [noDoubleSpace_cons, Bool.and_eq_true]
            refine ⟨?_, hrec⟩
            rw [collapseNewlines_head?]
            cases hh : rest.head? with
            | none => rfl
            | some b =>
                rw [noDoubleSpace_cons, hh, Bool.and_eq_true] at hnds
                simpa using hnds.1

/-- The output of the newline collapse has no triple newline. -/
theorem noTripleNl_collapseNewlines (s : List Char) :
    noTripleNl (collapseNewlines s) = true := by
  suffices hgen : ∀ (n : ℕ) (s : List Char), s.length ≤ n →
      noTripleNl (collapseNewlines s) = true from
    hgen s.length s (le_refl _)
  intro n
  induction n with
  | zero =>
      intro s hl
      have hnil : s = [] := List.length_eq_zero.mp (by omega)
      subst hnil
      simp [collapseNewlines, noTripleNl]
  | succ n ih =>
      intro s hl
      cases s with
      | nil => simp [collapseNewlines, noTripleNl]
      | cons c rest =>
          by_cases hc : c = '\n'
          · rw [collapseNewlines, if_pos hc]
            have hdwlen : (rest.dropWhile (fun x => x = '\n')).length ≤
                rest.length := (List.dropWhile_suffix _).length_le
            have hrec := ih (rest.dropWhile (fun x => x = '\n'))
              (by simp at hl; omega)
            have hhead : ∀ d,
                (collapseNewlines
                  (rest.dropWhile (fun x => x = '\n'))).head? = some d →
                d ≠ '\n' := by
              intro d hd
              rw [collapseNewlines_head?] at hd
              have hf := head?_dropWhile _ d hd
              simpa using hf
            by_cases hrun :
                2 ≤ (rest.takeWhile (fun x => x = '\n')).length
            · rw [if_pos hrun]
              exact noTripleNl_two_nl hhead hrec
            · rw [if_neg hrun]
              cases hrunv : rest.takeWhile (fun x => x = '\n') with
              | nil =>
                  exact noTripleNl_one_nl hhead hrec
              | cons x xs =>
                  have hx : x = '\n' := by
                    have hm := List.mem_takeWhile_imp
                      (show x ∈ rest.takeWhile (fun z => z = '\n') by
                        rw [hrunv]; simp)
                    simpa using hm
                  have hxs : xs = [] := by
                    rw [hrunv] at hrun
                    simp only [List.length_cons] at hrun
                    exact List.length_eq_zero.mp (by omega)
                  rw [hx, hxs]
                  exact noTripleNl_two_nl hhead hrec
          · rw [collapseNewlines, if_neg hc]
            exact noTripleNl_cons_nonNl hc
              (ih rest (by simp at hl; omega))

/-- On inputs with no triple newline the newline collapse is the
identity. -/
theorem noTripleNl_collapseNewlines_eq (s : List Char)
    (h : noTripleNl s = true) : collapseNewlines s = s := by
  suffices hgen : ∀ (n : ℕ) (s : List Char), s.length ≤ n →
      noTripleNl s = true → collapseNewlines s = s from
    hgen s.length s (le_refl _) h
  intro n
  induction n with
  | zero =>
      intro s hl _
      have hnil : s = [] := List.length_eq_zero.mp (by omega)
      subst hnil
      simp [collapseNewlines]
  | succ n ih =>
      intro s hl hntn
      cases s with
      | cons c rest =>
          by_cases hc : c = '\n'
          · subst hc
            rw [collapseNewlines, if_pos rfl]
            have hrun : ¬ 2 ≤
                (rest.takeWhile (fun x => x = '\n')).length := by
              intro hge
              cases hrunv : rest.takeWhile (fun x => x = '\n') with
              | nil => rw [hrunv] at hge; simp at hge
              | cons x xs =>
                  cases hxsv : xs with
                  | nil =>
                      rw [hrunv, hxsv] at hge
                      simp at hge
                  | cons y ys =>
                      have hx : x = '\n' := by
                        have hm := List.mem_takeWhile_imp
                          (show x ∈
                              rest.takeWhile (fun z => z = '\n') by
                            rw [hrunv]; simp)
                        simpa using hm
                      have hy : y = '\n' := by
                        have hm := List.mem_takeWhile_imp
                          (show y ∈
                              rest.takeWhile (fun z => z = '\n') by
                            rw [hrunv, hxsv]; simp)
                        simpa using hm
                      have heq := List.takeWhile_append_dropWhile
                        (fun z : Char => z = '\n') rest
                      rw [hrunv, hxsv, hx, hy] at heq
                      have hrest : rest = '\n' :: '\n' ::
                          (ys ++ rest.dropWhile
                            (fun z => z = '\n')) := heq.symm
                      rw [hrest] at hntn
                      simp [noTripleNl] at hntn
            have hdw : collapseNewlines
                (rest.dropWhile (fun x => x = '\n')) =
                rest.dropWhile (fun x => x = '\n') := by
              apply ih
              · have hle : (rest.dropWhile
                    (fun x => x = '\n')).length ≤ rest.length :=
                  (List.dropWhile_suffix _).length_le
                simp at hl
                omega
              · refine noTripleNl_append_right
                  (rest.takeWhile (fun x => x = '\n')) _ ?_
                rw [List.takeWhile_append_dropWhile]
                exact noTripleNl_tail hntn
            rw [if_neg hrun, hdw, List.cons_append,
              List.takeWhile_append_dropWhile]
          · rw [collapseNewlines, if_neg hc,
              ih rest (by simp at hl; omega) (noTripleNl_tail hntn)]
      | nil => simp [collapseNewlines]

/-- The stripped text is a prefix of the text stripped on the left
only. -/
theorem pyStrip_prefix (s : List Char) :
    ∃ t2, pyStrip s ++ t2 = s.dropWhile isWsChar := by
  have h2 : (s.dropWhile isWsChar).reverse.dropWhile isWsChar <:+
      (s.dropWhile isWsChar).reverse := List.dropWhile_suffix _
  obtain ⟨t2r, ht2⟩ := h2
  refine ⟨t2r.reverse, ?_⟩
  have h3 := congrArg List.reverse ht2
  rw [List.reverse_append, List.reverse_reverse] at h3
  exact h3

/-- Stripping removes an outer whitespace frame and nothing else. -/
theorem pyStrip_split (s : List Char) :
    ∃ t1 t2, s = t1 ++ pyStrip s ++ t2 := by
  have h1 : s.dropWhile isWsChar <:+ s := List.dropWhile_suffix _
  obtain ⟨t1, ht1⟩ := h1
  obtain ⟨t2, ht2⟩ := pyStrip_prefix s
  refine ⟨t1, t2, ?_⟩
  conv_rhs => rw [List.append_assoc, ht2]
  exact ht1.symm

/-- Stripped text has no whitespace at either end. -/
theorem noEdgeWs_pyStrip (s : List Char) :
    noEdgeWs (pyStrip s) = true := by
  obtain ⟨t2, ht2⟩ := pyStrip_prefix s
  have hhead : ∀ c, (pyStrip s).head? = some c →
      isWsChar c = false := by
    intro c hc
    have hvhead : (s.dropWhile isWsChar).head? = some c := by
      rw [← ht2]
      cases hps : pyStrip s with
      | nil =>
          rw [hps] at hc
          simp at hc
      | cons a l =>
          rw [hps] at hc
          simpa using hc
    exact head?_dropWhile _ c hvhead
  have hlast : ∀ c, (pyStrip s).getLast? = some c →
      isWsChar c = false := by
    intro c hc
    have hc2 : ((s.dropWhile isWsChar).reverse.dropWhile
        isWsChar).head? = some c := by
      rw [← List.getLast?_reverse]
      exact hc
    exact head?_dropWhile _ c hc2
  unfold noEdgeWs
  rw [Bool.and_eq_true]
  constructor
  · cases hh : (pyStrip s).head? with
    | none => rfl
    | some c => simp [hhead c hh]
  · cases hh : (pyStrip s).getLast? with
    | none => rfl
    | some c => simp [hlast c hh]

/-- On texts with no whitespace at either end, stripping is the
identity. -/
theorem noEdgeWs_pyStrip_eq (s : List Char)
    (h : noEdgeWs s = true) : pyStrip s = s := by
  unfold noEdgeWs at h
  rw [Bool.and_eq_true] at h
  obtain ⟨h1, h2⟩ := h
  have hh : ∀ c, s.head? = some c → isWsChar c = false := by
    intro c hc
    rw [hc] at h1
    simpa using h1
  have hl : ∀ c, s.reverse.head? = some c → isWsChar c = false := by
    intro c hc
    rw [List.head?_reverse] at hc
    rw [hc] at h2
    simpa using h2
  unfold pyStrip
  rw [dropWhile_eq_self_of_head hh, dropWhile_eq_self_of_head hl,
    List.reverse_reverse]

/-- Whitespace normalization is idempotent. -/
theorem normalizeWhitespace_idem (s : List Char) :
    normalizeWhitespace (normalizeWhitespace s) =
      normalizeWhitespace s := by
  have hnds_u : noDoubleSpace
      (collapseNewlines (collapseSpaces s)) = true :=
    noDoubleSpace_collapseNewlines _ (noDoubleSpace_collapseSpaces s)
  have hntn_u : noTripleNl
      (collapseNewlines (collapseSpaces s)) = true :=
    noTripleNl_collapseNewlines _
  obtain ⟨t1, t2, hsplit⟩ :=
    pyStrip_split (collapseNewlines (collapseSpaces s))
  have hsplit2 : collapseNewlines (collapseSpaces s) =
      t1 ++ (pyStrip (collapseNewlines (collapseSpaces s)) ++ t2) := by
    rw [← List.append_assoc]
    exact hsplit
  have hnds_t : noDoubleSpace
      (pyStrip (collapseNewlines (collapseSpaces s))) = true :=
    noDoubleSpace_append_left _ t2
      (noDoubleSpace_append_right t1 _
        (by rw [← hsplit2]; exact hnds_u))
  have hntn_t : noTripleNl
      (pyStrip (collapseNewlines (collapseSpaces s))) = true :=
    noTripleNl_append_left _ t2
      (noTripleNl_append_right t1 _
        (by rw [← hsplit2]; exact hntn_u))
  show normalizeWhitespace
      (pyStrip (collapseNewlines (collapseSpaces s))) =
    pyStrip (collapseNewlines (collapseSpaces s))
  unfold normalizeWhitespace
  rw [noDoubleSpace_collapseSpaces_eq _ hnds_t,
    noTripleNl_collapseNewlines_eq _ hntn_t,
    noEdgeWs_pyStrip_eq _ (noEdgeWs_pyStrip _)]

end Validator
namespace Validator

/-- On the default config with an identity NFC the sanitized output is
empty (the short-input early return) or the whitespace normalization
of the HTML strip of a control-filtered text of length at most
max_length. -/
theorem validate_sanitized_spec (nfc : List Char → List Char)
    (hnfc : ∀ x, nfc x = x) (s : List Char) :
    (validate nfc defaultVConfig s).sanitized = [] ∨
    ∃ u : List Char, (validate nfc defaultVConfig s).sanitized =
        normalizeWhitespace (stripHtmlStep u) ∧ u.length ≤ 32000 := by
  have htake : (if (32000:ℕ) < s.length then s.take 32000 else s).length
      ≤ 32000 := by
    split
    · rw [List.length_take]
      exact min_le_left _ _
    · omega
  by_cases hmin :
      (if (32000:ℕ) < s.length then s.take 32000 else s).length < 1
  · left
    simp only [validate, defaultVConfig, if_pos hmin]
  · right
    refine ⟨(if (32000:ℕ) < s.length then s.take 32000 else s).filter
        (fun c => !isCtlChar c), ?_, ?_⟩
    · simp only [validate, defaultVConfig, if_neg hmin, if_true]
      rw [hnfc]
    · exact le_trans (List.length_filter_le _ _) htake

/-- On the default config with an identity NFC, validation of a
nonempty, within-budget text with no ampersand, no angle bracket and
no control characters, which triggers none of the detectors consulted
at the standard level and is already whitespace-normal, is the
identity: valid, unchanged, and threat-free. -/
theorem validate_fixed (nfc : List Char → List Char)
    (hnfc : ∀ x, nfc x = x) (t : List Char)
    (hlen : t.length ≤ 32000) (hne : t ≠ [])
    (hamp : '&' ∉ t) (hlt : '<' ∉ t)
    (hctl : ∀ c ∈ t, isCtlChar c = false)
    (hxss : detectXss t = false) (hsql : detectSql t = false)
    (hpath : detectPath t = false)
    (hnws : normalizeWhitespace t = t) :
    validate nfc defaultVConfig t =
      { isValid := true, sanitized := t, original := t,
        threats := [] } := by
  have h1 : ¬ ((32000:ℕ) < t.length) := by omega
  have h2 : ¬ (t.length < 1) := by
    have := List.length_pos.mpr hne
    omega
  have hfil : t.filter (fun c => !isCtlChar c) = t := by
    rw [List.filter_eq_self]
    intro a ha
    simp [hctl a ha]
  have hstrip : stripHtmlStep t = t := by
    unfold stripHtmlStep
    rw [stripTags_eq_self hlt, htmlUnescape_eq_self hamp]
  simp only [validate, defaultVConfig, if_neg h1, if_neg h2, if_true]
  rw [hnfc, hfil]
  simp [hxss, hsql, hpath, hstrip, hnws, determineValidity]

end Validator

/-- Claim C7, counterexample.  On the default config, validating the
one-space text accepts with sanitized text empty (the whitespace
normalization runs after the min_length check), but re-validating
that sanitized text is rejected by the min_length early return, so
sanitization is not a fixed point on accepted inputs. -/
theorem validator_roundtrip_counterexample :
    (Validator.validate id Validator.defaultVConfig (" ".data)).isValid
        = true ∧
    (Validator.validate id Validator.defaultVConfig (" ".data)).sanitized
        = [] ∧
    (Validator.validate id Validator.defaultVConfig
        ((Validator.validate id Validator.defaultVConfig
          (" ".data)).sanitized)).isValid = false := by
  have h1 : Validator.stripHtmlStep (" ".data) = (" ".data) := by
    unfold Validator.stripHtmlStep
    rw [Validator.stripTags_eq_self (by decide),
      Validator.htmlUnescape_eq_self (by decide)]
  have h2 : Validator.normalizeWhitespace (" ".data) = [] := by
    unfold Validator.normalizeWhitespace
    rw [Validator.noDoubleSpace_collapseSpaces_eq (" ".data) (by decide),
      Validator.noTripleNl_collapseNewlines_eq (" ".data) (by decide)]
    rfl
  have hs : (Validator.validate id Validator.defaultVConfig
      (" ".data)).sanitized = [] := by
    simp only [Validator.validate, Validator.defaultVConfig,
      if_neg (show ¬ ((32000:ℕ) < (" ".data).length) from by decide),
      if_neg (show ¬ ((" ".data).length < 1) from by decide),
      if_true, id_eq]
    rw [show (" ".data).filter (fun c => !Validator.isCtlChar c) =
        (" ".data) from by decide, h1, h2]
  refine ⟨rfl, hs, ?_⟩
  rw [hs]
  rfl

/-- Claim C7, amended.  With NFC acting as the identity, if the
default-config validation of s accepts and its sanitized text is
nonempty, free of ampersands, angle brackets and control characters,
and triggers none of the XSS, SQL and path-traversal detectors, then
re-validating the sanitized text accepts and returns it unchanged
with an empty threat list.  The unqualified claim fails because
sanitization can empty an accepted text, which the min_length early
return of the second validation then rejects. -/
theorem validator_roundtrip_amended
    (nfc : List Char → List Char) (hnfc : ∀ x, nfc x = x)
    (s : List Char)
    (_hvalid :
      (Validator.validate nfc Validator.defaultVConfig s).isValid = true)
    (hne :
      (Validator.validate nfc Validator.defaultVConfig s).sanitized ≠ [])
    (hamp : '&' ∉
      (Validator.validate nfc Validator.defaultVConfig s).sanitized)
    (hlt : '<' ∉
      (Validator.validate nfc Validator.defaultVConfig s).sanitized)
    (hctl : ∀ c ∈
      (Validator.validate nfc Validator.defaultVConfig s).sanitized,
      Validator.isCtlChar c = false)
    (hxss : Validator.detectXss
      ((Validator.validate nfc Validator.defaultVConfig s).sanitized)
      = false)
    (hsql : Validator.detectSql
      ((Validator.validate nfc Validator.defaultVConfig s).sanitized)
      = false)
    (hpath : Validator.detectPath
      ((Validator.validate nfc Validator.defaultVConfig s).sanitized)
      = false) :
    Validator.validate nfc Validator.defaultVConfig
        ((Validator.validate nfc Validator.defaultVConfig s).sanitized) =
      { isValid := true,
        sanitized :=
          (Validator.validate nfc Validator.defaultVConfig s).sanitized,
        original :=
          (Validator.validate nfc Validator.defaultVConfig s).sanitized,
        threats := [] } := by
  obtain hnil | ⟨u, hu, hul⟩ :=
    Validator.validate_sanitized_spec nfc hnfc s
  · exact absurd hnil hne
  · have hlen :
        (Validator.validate nfc
          Validator.defaultVConfig s).sanitized.length ≤ 32000 := by
      rw [hu]
      have l1 := Validator.normalizeWhitespace_length_le
        (Validator.stripHtmlStep u)
      have l2 := Validator.stripTags_length_le u
      have l3 := Validator.htmlUnescape_length_le (Validator.stripTags u)
      have l4 : (Validator.stripHtmlStep u).length ≤ u.length := by
        unfold Validator.stripHtmlStep
        omega
      omega
    have hnws : Validator.normalizeWhitespace
        ((Validator.validate nfc Validator.defaultVConfig s).sanitized) =
        (Validator.validate nfc Validator.defaultVConfig s).sanitized := by
      rw [hu]
      exact Validator.normalizeWhitespace_idem (Validator.stripHtmlStep u)
    exact Validator.validate_fixed nfc hnfc _ hlen hne hamp hlt hctl
      hxss hsql hpath hnws

/-- Claim C7, witness: a plain five-letter word survives the round
trip unchanged. -/
theorem validator_roundtrip_witness :
    Validator.validate id Validator.defaultVConfig
        ((Validator.validate id Validator.defaultVConfig
          ("hello".data)).sanitized) =
      { isValid := true,
        sanitized := (Validator.validate id Validator.defaultVConfig
          ("hello".data)).sanitized,
        original := (Validator.validate id Validator.defaultVConfig
          ("hello".data)).sanitized,
        threats := [] } := by
  have hnws5 : Validator.normalizeWhitespace ("hello".data) =
      "hello".data := by
    unfold Validator.normalizeWhitespace
    rw [Validator.noDoubleSpace_collapseSpaces_eq ("hello".data)
        (by decide),
      Validator.noTripleNl_collapseNewlines_eq ("hello".data)
        (by decide),
      Validator.noEdgeWs_pyStrip_eq ("hello".data) (by decide)]
  have h := Validator.validate_fixed id (fun _ => rfl) ("hello".data)
    (by decide) (by decide) (by decide) (by decide) (by decide)
    rfl rfl rfl hnws5
  exact validator_roundtrip_amended id (fun _ => rfl) ("hello".data)
    (by rw [h]) (by rw [h]; decide) (by rw [h]; decide)
    (by rw [h]; decide) (by rw [h]; decide) (by rw [h]; rfl)
    (by rw [h]; rfl) (by rw [h]; rfl)
/-- Claim C8, counterexample.  A tracker configured with only a
monthly limit of 10 and the default thresholds, recording a flat-rate
usage of 9.6 (ratio 0.96, past the unvisited 0.95 threshold), fires
no observer invocation at all: _check_budgets never consults
monthly_limit. -/
theorem cost_monthly_counterexample :
    (Cost.recordUsage []
        { dailyLimit := none, monthlyLimit := some 10,
          perUserDailyLimit := none }
        ("m") 480000 480000 0 none ("2025-10-01")
        ⟨[], [], 0⟩).1.2 = [] ∧
    ¬ Cost.monthlyAlertAsClaimed
        { dailyLimit := none, monthlyLimit := some 10,
          perUserDailyLimit := none }
        ("2025-10")
        (Cost.recordUsage []
          { dailyLimit := none, monthlyLimit := some 10,
            perUserDailyLimit := none }
          ("m") 480000 480000 0 none ("2025-10-01") ⟨[], [], 0⟩).2
        ((Cost.recordUsage []
          { dailyLimit := none, monthlyLimit := some 10,
            perUserDailyLimit := none }
          ("m") 480000 480000 0 none ("2025-10-01")
          ⟨[], [], 0⟩).1.2) := by
  refine ⟨rfl, ?_⟩
  intro hcl
  refine hcl 10 rfl ⟨19/20, ?_, ?_, ?_⟩ rfl
  · show (19:ℚ)/20 ∈ ([1/2, 4/5, 19/20] : List ℚ)
    simp
  · show (19:ℚ)/20 ≤
      if (0:ℚ) < 10
      then ((((480000:ℕ):ℚ) + ((480000:ℕ):ℚ)) * (1/100000) + 0) / 10
      else 0
    rw [if_pos (by norm_num : (0:ℚ) < 10)]
    push_cast
    norm_num
  · show (0:ℚ) < 19/20
    norm_num

/-- Claim C8, amended.  The budget check does run on every
record_usage call, but it examines only the daily and the per-user
daily limits: the result of record_usage is unchanged under any
modification of monthly_limit, and for an examined budget type the
observer is invoked (at most once, with (budget_type, current,
limit)) exactly when some alert threshold at or below the spend ratio
exceeds the remembered last threshold. -/
theorem cost_budget_amended
    (pricing : List (String × Cost.Pricing)) (cfg : Cost.BudgetConfig)
    (model : String) (it ot ct : ℕ) (userId : Option String)
    (dateKey : String) (st : Cost.CostState) (m : Option ℚ)
    (btype : String) (current limit last : ℚ) :
    (Cost.recordUsage pricing { cfg with monthlyLimit := m } model it ot
        ct userId dateKey st =
      Cost.recordUsage pricing cfg model it ot ct userId dateKey st) ∧
    ((Cost.checkThreshold cfg btype current limit last).1 ≠ [] ↔
      ∃ th ∈ cfg.alertThresholds,
        th ≤ (if 0 < limit then current / limit else 0) ∧ last < th) ∧
    (∀ a ∈ (Cost.checkThreshold cfg btype current limit last).1,
      a = ⟨btype, current, limit⟩) ∧
    (Cost.checkThreshold cfg btype current limit last).1.length ≤ 1 := by
  refine ⟨rfl, ?_, ?_, ?_⟩
  · have key : (Cost.checkThreshold cfg btype current limit last).1 ≠ []
        ↔ (cfg.alertThresholds.find?
          (fun th => decide (th ≤ (if 0 < limit then current / limit
            else 0) ∧ last < th))).isSome = true := by
      simp only [Cost.checkThreshold]
      cases cfg.alertThresholds.find?
          (fun th => decide (th ≤ (if 0 < limit then current / limit
            else 0) ∧ last < th)) with
      | none => simp
      | some th => simp
    rw [key, List.find?_isSome]
    simp only [decide_eq_true_eq]
  · intro a ha
    simp only [Cost.checkThreshold] at ha
    cases hf : cfg.alertThresholds.find?
        (fun th => decide (th ≤ (if 0 < limit then current / limit
          else 0) ∧ last < th)) with
    | none =>
        rw [hf] at ha
        simp at ha
    | some th =>
        rw [hf] at ha
        simpa using ha
  · simp only [Cost.checkThreshold]
    cases cfg.alertThresholds.find?
        (fun th => decide (th ≤ (if 0 < limit then current / limit
          else 0) ∧ last < th)) with
    | none => simp
    | some th => simp

/-- Claim C8, witness: record_usage with monthly limit 99 equals
record_usage with monthly limit 7 on the same data, and a daily-type
check at spend 6 of limit 10 with last threshold 0 fires. -/
theorem cost_budget_witness :
    (Cost.recordUsage []
        { dailyLimit := some 10, monthlyLimit := some 99,
          perUserDailyLimit := none }
        ("m") 1 1 0 none ("2025-10-01") ⟨[], [], 0⟩ =
      Cost.recordUsage []
        { dailyLimit := some 10, monthlyLimit := some 7,
          perUserDailyLimit := none }
        ("m") 1 1 0 none ("2025-10-01") ⟨[], [], 0⟩) ∧
    (Cost.checkThreshold
        { dailyLimit := some 10, monthlyLimit := some 7,
          perUserDailyLimit := none } ("daily") 6 10 0).1 ≠ [] := by
  have h := cost_budget_amended []
    { dailyLimit := some 10, monthlyLimit := some 7,
      perUserDailyLimit := none }
    ("m") 1 1 0 none ("2025-10-01") ⟨[], [], 0⟩ (some 99)
    ("daily") 6 10 0
  refine ⟨h.1, h.2.1.mpr ⟨1/2, ?_, ?_, ?_⟩⟩
  · show (1:ℚ)/2 ∈ ([1/2, 4/5, 19/20] : List ℚ)
    simp
  · rw [if_pos (by norm_num : (0:ℚ) < 10)]
    norm_num
  · norm_num
namespace SLOm

/-- get_status computes compliance from the unrounded error budget
and burn rate of the cleaned-up deque. -/
theorem getStatus_compliance_eq (slo : SLO) (now : ℚ)
    (st : TrackerState) :
    (getStatus slo now st).compliance =
      (if errorBudgetClean slo (cleanup slo now st) ≤ 0
       then Compliance.violated
       else if errorBudgetClean slo (cleanup slo now st) ≤ 20
           ∨ burnAboveOne (burnRateClean slo now (cleanup slo now st))
             = true
       then Compliance.atRisk
       else Compliance.compliant) := rfl

/-- Cleaning up an empty deque does nothing. -/
theorem cleanup_fresh (slo : SLO) (now : ℚ) :
    cleanup slo now freshTracker = freshTracker := by
  rw [cleanup]
  rfl

end SLOm

/-- Claim C9.  get_status reports VIOLATED exactly when the remaining
error budget is at most 0, AT_RISK exactly when the budget is
positive but at most 20 or the burn rate exceeds 1 (infinite burn
included), and COMPLIANT otherwise; and on a tracker with zero
recorded events it reports current value 100, error budget remaining
100, and COMPLIANT. -/
theorem slo_status_compliance (slo : SLOm.SLO) (now : ℚ)
    (st : SLOm.TrackerState) :
    ((SLOm.getStatus slo now st).compliance = SLOm.Compliance.violated ↔
      SLOm.errorBudgetClean slo (SLOm.cleanup slo now st) ≤ 0) ∧
    ((SLOm.getStatus slo now st).compliance = SLOm.Compliance.atRisk ↔
      (¬ SLOm.errorBudgetClean slo (SLOm.cleanup slo now st) ≤ 0 ∧
        (SLOm.errorBudgetClean slo (SLOm.cleanup slo now st) ≤ 20 ∨
          SLOm.burnAboveOne (SLOm.burnRateClean slo now
            (SLOm.cleanup slo now st)) = true))) ∧
    ((SLOm.getStatus slo now st).compliance = SLOm.Compliance.compliant ↔
      (¬ SLOm.errorBudgetClean slo (SLOm.cleanup slo now st) ≤ 0 ∧
        ¬ SLOm.errorBudgetClean slo (SLOm.cleanup slo now st) ≤ 20 ∧
        SLOm.burnAboveOne (SLOm.burnRateClean slo now
          (SLOm.cleanup slo now st)) = false)) ∧
    (SLOm.getStatus slo now SLOm.freshTracker).currentValue = 100 ∧
    (SLOm.getStatus slo now SLOm.freshTracker).errorBudgetRemaining
      = 100 ∧
    (SLOm.getStatus slo now SLOm.freshTracker).compliance
      = SLOm.Compliance.compliant := by
  have hround4 : SLOm.pyRound 4 100 = 100 := by
    unfold SLOm.pyRound
    norm_num
  have hround2 : SLOm.pyRound 2 100 = 100 := by
    unfold SLOm.pyRound
    norm_num
  have hcv : SLOm.currentValueClean slo SLOm.freshTracker = 100 := rfl
  have heb : SLOm.errorBudgetClean slo SLOm.freshTracker = 100 := rfl
  have hburn : SLOm.burnAboveOne
      (SLOm.burnRateClean slo now SLOm.freshTracker) = false := by
    rw [show SLOm.burnRateClean slo now SLOm.freshTracker = some 0
      from rfl]
    simp [SLOm.burnAboveOne]
  refine ⟨?_, ?_, ?_, ?_, ?_, ?_⟩
  · rw [SLOm.getStatus_compliance_eq]
    by_cases hv : SLOm.errorBudgetClean slo (SLOm.cleanup slo now st) ≤ 0
    · rw [if_pos hv]
      simp [hv]
    · rw [if_neg hv]
      by_cases hr : SLOm.errorBudgetClean slo
          (SLOm.cleanup slo now st) ≤ 20 ∨
          SLOm.burnAboveOne (SLOm.burnRateClean slo now
            (SLOm.cleanup slo now st)) = true
      · rw [if_pos hr]
        simp [hv]
      · rw [if_neg hr]
        simp [hv]
  · rw [SLOm.getStatus_compliance_eq]
    by_cases hv : SLOm.errorBudgetClean slo (SLOm.cleanup slo now st) ≤ 0
    · rw [if_pos hv]
      simp [hv]
    · rw [if_neg hv]
      by_cases hr : SLOm.errorBudgetClean slo
          (SLOm.cleanup slo now st) ≤ 20 ∨
          SLOm.burnAboveOne (SLOm.burnRateClean slo now
            (SLOm.cleanup slo now st)) = true
      · rw [if_pos hr]
        simp [hv, hr]
      · rw [if_neg hr]
        simp [hv, hr]
  · rw [SLOm.getStatus_compliance_eq]
    by_cases hv : SLOm.errorBudgetClean slo (SLOm.cleanup slo now st) ≤ 0
    · rw [if_pos hv]
      simp [hv]
    · rw [if_neg hv]
      by_cases hr : SLOm.errorBudgetClean slo
          (SLOm.cleanup slo now st) ≤ 20 ∨
          SLOm.burnAboveOne (SLOm.burnRateClean slo now
            (SLOm.cleanup slo now st)) = true
      · rw [if_pos hr]
        constructor
        · intro h
          exact absurd h (by simp)
        · rintro ⟨-, h20, hb⟩
          rcases hr with h1 | h2
          · exact absurd h1 h20
          · rw [hb] at h2
            exact absurd h2 (by decide)
      · rw [if_neg hr]
        push_neg at hr
        obtain ⟨h20, hb⟩ := hr
        have hb2 : SLOm.burnAboveOne (SLOm.burnRateClean slo now
            (SLOm.cleanup slo now st)) = false := Bool.eq_false_iff.mpr hb
        exact ⟨fun _ => ⟨hv, not_le.mpr h20, hb2⟩, fun _ => rfl⟩
  · show SLOm.pyRound 4 (SLOm.currentValueClean slo
      (SLOm.cleanup slo now SLOm.freshTracker)) = 100
    rw [SLOm.cleanup_fresh, hcv, hround4]
  · show SLOm.pyRound 2 (SLOm.errorBudgetClean slo
      (SLOm.cleanup slo now SLOm.freshTracker)) = 100
    rw [SLOm.cleanup_fresh, heb, hround2]
  · rw [SLOm.getStatus_compliance_eq, SLOm.cleanup_fresh, heb, hburn]
    norm_num
namespace Alerting

/-- _should_dedupe when the fingerprint is still live: drop, keep the
pruned map unchanged. -/
theorem shouldDedupe_pos (t : ℚ) (a : Alert) (st : MgrState)
    (h : (pruneSeen t st).any
      (fun p => decide (p.1 = a.fingerprint)) = true) :
    shouldDedupe t a st =
      (true, { st with seenFingerprints := pruneSeen t st }) := by
  simp only [shouldDedupe, pruneSeen] at h ⊢
  rw [if_pos h]

/-- _should_dedupe when the fingerprint is not live: record it at the
current instant. -/
theorem shouldDedupe_neg (t : ℚ) (a : Alert) (st : MgrState)
    (h : (pruneSeen t st).any
      (fun p => decide (p.1 = a.fingerprint)) = false) :
    shouldDedupe t a st =
      (false, { st with
        seenFingerprints := pruneSeen t st ++ [(a.fingerprint, t)] }) := by
  simp only [shouldDedupe, pruneSeen] at h ⊢
  rw [if_neg (by simp [h])]

/-- _check_rate_limit inside the minute window with the counter
already at the limit: refuse and change nothing. -/
theorem checkRateLimit_noReset_full (t : ℚ) (st : MgrState)
    (hw : ¬ 60 < t - st.sentWindowStart)
    (hc : st.rateLimit ≤ st.sentCount) :
    checkRateLimit t st = (false, st) := by
  simp only [checkRateLimit]
  rw [if_neg hw, if_pos hc]

/-- _check_rate_limit never touches the fingerprint map or the dedup
window. -/
theorem checkRateLimit_frame (t : ℚ) (st : MgrState) :
    (checkRateLimit t st).2.seenFingerprints = st.seenFingerprints ∧
    (checkRateLimit t st).2.dedupWindow = st.dedupWindow := by
  simp only [checkRateLimit]
  split <;> split <;> simp

/-- send_alert of a deduplicated alert: empty result, pruned map. -/
theorem sendAlert_deduped (t : ℚ) (a : Alert) (st : MgrState)
    (hdd : (pruneSeen t st).any
      (fun p => decide (p.1 = a.fingerprint)) = true) :
    sendAlert t a st =
      ([], { st with seenFingerprints := pruneSeen t st }) := by
  simp only [sendAlert]
  rw [shouldDedupe_pos t a st hdd]
  rfl

/-- send_alert of a new fingerprint always hands the
fingerprint-extended state to the rate limiter, whatever the rate
limiter then decides. -/
theorem sendAlert_state_neg (t : ℚ) (a : Alert) (st : MgrState)
    (hdd : (pruneSeen t st).any
      (fun p => decide (p.1 = a.fingerprint)) = false) :
    (sendAlert t a st).2 =
      (checkRateLimit t { st with
        seenFingerprints := pruneSeen t st ++ [(a.fingerprint, t)] }).2 := by
  simp only [sendAlert]
  rw [shouldDedupe_neg t a st hdd]
  simp only [Bool.false_eq_true, if_false]
  split <;> rfl

/-- send_alert of a rate-limited new fingerprint: empty result, but
the fingerprint is recorded. -/
theorem sendAlert_rateLimited (t : ℚ) (a : Alert) (st : MgrState)
    (hdd : (pruneSeen t st).any
      (fun p => decide (p.1 = a.fingerprint)) = false)
    (hw : ¬ 60 < t - st.sentWindowStart)
    (hc : st.rateLimit ≤ st.sentCount) :
    sendAlert t a st =
      ([], { st with
        seenFingerprints := pruneSeen t st ++ [(a.fingerprint, t)] }) := by
  simp only [sendAlert]
  rw [shouldDedupe_neg t a st hdd]
  simp only [Bool.false_eq_true, if_false]
  rw [checkRateLimit_noReset_full t _ (by simpa using hw)
    (by simpa using hc)]
  simp

/-- A send never erases a live fingerprint entry and never changes
the dedup window. -/
theorem sendAlert_seen_mono (t : ℚ) (a : Alert) (st : MgrState)
    (f : String) (s : ℚ) (hmem : (f, s) ∈ st.seenFingerprints)
    (ht : t - st.dedupWindow < s) :
    (f, s) ∈ (sendAlert t a st).2.seenFingerprints ∧
    (sendAlert t a st).2.dedupWindow = st.dedupWindow := by
  have hkept : (f, s) ∈ pruneSeen t st := by
    rw [pruneSeen, List.mem_filter]
    exact ⟨hmem, by simpa using ht⟩
  by_cases hdd : (pruneSeen t st).any
      (fun p => decide (p.1 = a.fingerprint)) = true
  · rw [sendAlert_deduped t a st hdd]
    exact ⟨hkept, rfl⟩
  · have hdd2 : (pruneSeen t st).any
        (fun p => decide (p.1 = a.fingerprint)) = false :=
      Bool.eq_false_iff.mpr hdd
    rw [sendAlert_state_neg t a st hdd2]
    have hfr := checkRateLimit_frame t
      { st with seenFingerprints := pruneSeen t st ++ [(a.fingerprint, t)] }
    constructor
    · rw [hfr.1]
      exact List.mem_append_left _ hkept
    · rw [hfr.2]

/-- Running further sends at instants still inside the dedup window
of a recorded fingerprint keeps that record and the window. -/
theorem runSends_preserves (f : String) (s : ℚ) :
    ∀ (sends : List (ℚ × Alert)) (st : MgrState),
    (f, s) ∈ st.seenFingerprints →
    (∀ q ∈ sends, q.1 - st.dedupWindow < s) →
    (f, s) ∈ (runSends sends st).seenFingerprints ∧
    (runSends sends st).dedupWindow = st.dedupWindow := by
  intro sends
  induction sends with
  | nil => intro st h _; exact ⟨h, rfl⟩
  | cons q rest ih =>
      intro st hmem hall
      have hstep := sendAlert_seen_mono q.1 q.2 st f s hmem
        (hall q (by simp))
      have hrest := ih (sendAlert q.1 q.2 st).2 hstep.1
        (by
          intro r hr
          rw [hstep.2]
          exact hall r (by simp [hr]))
      rw [show runSends (q :: rest) st =
        runSends rest (sendAlert q.1 q.2 st).2 from rfl]
      exact ⟨hrest.1, hrest.2.trans hstep.2⟩

end Alerting

/-- Claim C10.  If a first alert with a fresh fingerprint is dropped
by the per-minute rate limit (empty result map), its fingerprint was
already recorded by the deduplication check, so any later send of an
alert with the same fingerprint within dedup_window_seconds (through
arbitrary intermediate sends, themselves within the window) is
deduplicated and also returns an empty result map, although the
fingerprint was never dispatched to any channel. -/
theorem alert_dedupe_after_rate_limit
    (a1 a2 : Alerting.Alert) (st : Alerting.MgrState)
    (now1 t2 : ℚ) (sends : List (ℚ × Alerting.Alert))
    (hfp : a2.fingerprint = a1.fingerprint)
    (hnotseen : ∀ p ∈ st.seenFingerprints, p.1 ≠ a1.fingerprint)
    (hwin : ¬ 60 < now1 - st.sentWindowStart)
    (hcount : st.rateLimit ≤ st.sentCount)
    (hsends : ∀ q ∈ sends, q.1 - st.dedupWindow < now1)
    (ht2 : t2 - st.dedupWindow < now1) :
    (Alerting.sendAlert now1 a1 st).1 = [] ∧
    (Alerting.sendAlert t2 a2 (Alerting.runSends sends
      (Alerting.sendAlert now1 a1 st).2)).1 = [] := by
  have hdd1 : (Alerting.pruneSeen now1 st).any
      (fun p => decide (p.1 = a1.fingerprint)) = false := by
    rw [List.any_eq_false]
    intro p hp
    simp only [decide_eq_true_eq]
    rw [Alerting.pruneSeen] at hp
    exact hnotseen p (List.mem_of_mem_filter hp)
  have hstate := Alerting.sendAlert_rateLimited now1 a1 st hdd1
    hwin hcount
  have hmem1 : (a1.fingerprint, now1) ∈
      (Alerting.sendAlert now1 a1 st).2.seenFingerprints := by
    rw [hstate]
    exact List.mem_append_right _ (by simp)
  have hdw1 : (Alerting.sendAlert now1 a1 st).2.dedupWindow
      = st.dedupWindow := by
    rw [hstate]
  have hrun := Alerting.runSends_preserves a1.fingerprint now1 sends
    (Alerting.sendAlert now1 a1 st).2 hmem1
    (by
      intro q hq
      rw [hdw1]
      exact hsends q hq)
  have hddf : (Alerting.pruneSeen t2 (Alerting.runSends sends
      (Alerting.sendAlert now1 a1 st).2)).any
      (fun p => decide (p.1 = a2.fingerprint)) = true := by
    rw [List.any_eq_true]
    refine ⟨(a1.fingerprint, now1), ?_, by simp [hfp]⟩
    rw [Alerting.pruneSeen, List.mem_filter]
    refine ⟨hrun.1, ?_⟩
    simp only [decide_eq_true_eq]
    rw [hrun.2, hdw1]
    exact ht2
  constructor
  · rw [hstate]
  · rw [Alerting.sendAlert_deduped t2 a2 _ hddf]

/-- Claim C10, witness: with rate limit 0 and dedup window 300, a
first send at instant 10 is rate-limited and returns no channels,
and a second send of the same fingerprint at instant 20 is
deduplicated and also returns no channels. -/
theorem alert_dedupe_witness :
    (Alerting.sendAlert 10 ⟨("n"), .info, ("s"), [], ("fp")⟩
      ⟨300, 0, [], [], [], 0, 0⟩).1 = [] ∧
    (Alerting.sendAlert 20 ⟨("n"), .info, ("s"), [], ("fp")⟩
      (Alerting.runSends []
        (Alerting.sendAlert 10 ⟨("n"), .info, ("s"), [], ("fp")⟩
          ⟨300, 0, [], [], [], 0, 0⟩).2)).1 = [] :=
  alert_dedupe_after_rate_limit _ _ _ 10 20 []
    rfl (by simp) (by norm_num) (by norm_num) (by simp) (by norm_num)
